import Mathlib

/-!
# A verification model of the gitnotes core

This file embeds the core of the `gitnotes` note-keeping program
(identifier and metadata model, note store, virtual file tree, batch
operation planner, transactional command interpreter) as executable Lean
definitions, translated from the Rust sources (`src/model.rs`,
`src/command.rs`, `src/app.rs`), and proves properties of the embedding.

Modelling conventions:
* timestamps are natural numbers (`Local::now()` reads the interpreter
  state's `now` field);
* the file system and git trees are association lists from file names to
  blobs; the git engine (an external collaborator) is modelled as an
  opaque object store: `write_tree` returns the index map itself and a
  tree diff reports whether any file name maps to different blobs;
* commit-message lines are kept as structured values (`MsgLine`) rather
  than rendered strings; the rendering does not affect any property here;
* the symbolic-link projection (a best-effort rebuildable cache that no
  property below depends on) is not modelled;
* external collaborators (the interactive editor, the historical content
  fetcher) are passed in as explicit function parameters.
-/

set_option maxHeartbeats 1000000

namespace Gitnotes

/-! ## Association lists (model of `FnvHashMap` / `BTreeMap` contents) -/

/-- Lookup in an association list (first matching key). -/
def alookup {α β : Type} [DecidableEq α] (k : α) : List (α × β) → Option β
  | [] => none
  | (k', v) :: rest => if k = k' then some v else alookup k rest

/-- Map-style insert into an association list: replaces the value of an
existing key in place, otherwise appends at the end. -/
def ainsert {α β : Type} [DecidableEq α] (k : α) (v : β) : List (α × β) → List (α × β)
  | [] => [(k, v)]
  | (k', v') :: rest => if k = k' then (k, v) :: rest else (k', v') :: ainsert k v rest

/-- Remove a key from an association list. -/
def aremove {α β : Type} [DecidableEq α] (k : α) : List (α × β) → List (α × β)
  | [] => []
  | (k', v') :: rest => if k = k' then aremove k rest else (k', v') :: aremove k rest

theorem alookup_ainsert_self {α β : Type} [DecidableEq α] (k : α) (v : β) (l : List (α × β)) :
    alookup k (ainsert k v l) = some v := by
  induction l with
  | nil => simp [ainsert, alookup]
  | cons hd tl ih =>
    obtain ⟨k', v'⟩ := hd
    by_cases h : k = k' <;> simp [ainsert, alookup, h, ih]

theorem alookup_ainsert_ne {α β : Type} [DecidableEq α] (k k' : α) (v : β) (l : List (α × β))
    (h : k' ≠ k) : alookup k' (ainsert k v l) = alookup k' l := by
  induction l with
  | nil => simp [ainsert, alookup, h]
  | cons hd tl ih =>
    obtain ⟨k'', v''⟩ := hd
    by_cases h2 : k = k''
    · subst h2; simp [ainsert, alookup, h]
    · by_cases h3 : k' = k'' <;> simp [ainsert, alookup, h2, h3, ih]

theorem alookup_aremove_self {α β : Type} [DecidableEq α] (k : α) (l : List (α × β)) :
    alookup k (aremove k l) = none := by
  induction l with
  | nil => simp [aremove, alookup]
  | cons hd tl ih =>
    obtain ⟨k', v'⟩ := hd
    by_cases h : k = k'
    · subst h; simp [aremove, alookup, ih]
    · simp [aremove, alookup, h, ih]

theorem alookup_aremove_ne {α β : Type} [DecidableEq α] (k k' : α) (l : List (α × β))
    (h : k' ≠ k) : alookup k' (aremove k l) = alookup k' l := by
  induction l with
  | nil => simp [aremove, alookup]
  | cons hd tl ih =>
    obtain ⟨k'', v''⟩ := hd
    by_cases h2 : k = k''
    · subst h2; simp [aremove, alookup, h, ih]
    · by_cases h3 : k' = k'' <;> simp [aremove, alookup, h2, h3, ih]

theorem ainsert_lookup_self {α β : Type} [DecidableEq α] {k : α} {v : β} {l : List (α × β)}
    (h : alookup k l = some v) : ainsert k v l = l := by
  induction l with
  | nil => simp [alookup] at h
  | cons hd tl ih =>
    obtain ⟨k', v'⟩ := hd
    by_cases hk : k = k'
    · subst hk
      simp [alookup] at h
      simp [ainsert, h]
    · simp [alookup, hk] at h
      simp [ainsert, hk, ih h]

/-! ## Paths

A virtual path is its list of segments (the components of a Rust
`PathBuf`); rendering joins them with `/`. -/

/-- A virtual path: the segments of a `PathBuf`. -/
abbrev VPath := List String

/-- `Path::to_str` on a relative path: segments joined by `/`. -/
def VPath.render (p : VPath) : String := String.intercalate "/" p

/-- Boolean prefix test on segment lists (`p` is a, possibly equal,
prefix of `q`). -/
def listIsPre {α : Type} [DecidableEq α] : List α → List α → Bool
  | [], _ => true
  | _ :: _, [] => false
  | a :: as, b :: bs => a = b && listIsPre as bs

/-- `p` is a proper (strict) prefix of `q`. -/
def properPre {α : Type} [DecidableEq α] (p q : List α) : Bool :=
  listIsPre p q && p.length < q.length

theorem listIsPre_refl {α : Type} [DecidableEq α] (p : List α) : listIsPre p p = true := by
  induction p with
  | nil => rfl
  | cons a as ih => simp [listIsPre, ih]

theorem listIsPre_append {α : Type} [DecidableEq α] (p q : List α) :
    listIsPre p (p ++ q) = true := by
  induction p with
  | nil => rfl
  | cons a as ih => simp [listIsPre, ih]

theorem listIsPre_iff_append {α : Type} [DecidableEq α] (p q : List α) :
    listIsPre p q = true ↔ ∃ r, q = p ++ r := by
  constructor
  · intro h
    induction p generalizing q with
    | nil => exact ⟨q, rfl⟩
    | cons a as ih =>
      cases q with
      | nil => simp [listIsPre] at h
      | cons b bs =>
        simp [listIsPre] at h
        obtain ⟨rfl, h2⟩ := h
        obtain ⟨r, rfl⟩ := ih bs h2
        exact ⟨r, rfl⟩
  · rintro ⟨r, rfl⟩
    exact listIsPre_append p r

/-! ## NoteId (`src/model.rs`) -/

/-- `NOTE_ID_SIZE` from `model.rs`. -/
def NOTE_ID_SIZE : Nat := 6

/-- Models the Rust standard library's `char::is_numeric` (true for the
Unicode general categories Nd, Nl and No), which `NoteId::from_vec` calls.
The table is restricted to the code points below U+0800; every character
appearing in this development lies in that range. Note that this is a
strict superset of the ASCII digits `0`-`9`: for example the Arabic-Indic
digits U+0660-U+0669 are numeric. -/
def charIsNumeric (c : Char) : Bool :=
  c.isDigit
  || (c.val = 0xB2 || c.val = 0xB3 || c.val = 0xB9)
  || (0xBC ≤ c.val && c.val ≤ 0xBE)
  || (0x660 ≤ c.val && c.val ≤ 0x669)
  || (0x6F0 ≤ c.val && c.val ≤ 0x6F9)
  || (0x7C0 ≤ c.val && c.val ≤ 0x7C9)

/-- `NoteId`: a fixed-size array of characters in the source; here the
list of its characters (the length invariant is enforced by the
constructors `from_vec` and `new`, the only ways the program builds one). -/
structure NoteId where
  chars : List Char
deriving DecidableEq, Repr

/-- `NoteId::from_vec`: accepts exactly `NOTE_ID_SIZE` characters, all
numeric per `char::is_numeric`. -/
def NoteId.from_vec (cs : List Char) : Option NoteId :=
  if cs.length = NOTE_ID_SIZE then
    if cs.all charIsNumeric then some ⟨cs⟩ else none
  else none

/-- The `Display` impl: the characters, concatenated. -/
def NoteId.render (id : NoteId) : String := String.mk id.chars

/-- `FromStr for NoteId` (with the error message collapsed to `none`). -/
def NoteId.from_str (s : String) : Option NoteId := NoteId.from_vec s.toList

/-- The `CHARACTERS` table of `NoteId::new`. -/
def noteIdCHARACTERS : List Char :=
  ['0', '1', '2', '3', '4', '5', '6', '7', '8', '9']

/-- `NoteId::new`: six uniformly sampled decimal digits. The random
number generator is externalized as the function `sample` giving the
sampled table index for each position. -/
def NoteId.new (sample : Fin NOTE_ID_SIZE → Fin 10) : NoteId :=
  ⟨List.ofFn (fun i => noteIdCHARACTERS.getD (sample i).val '0')⟩

/-! ## NoteMetadata (`src/model.rs`) -/

/-- `NoteMetadata`: one record per note. Timestamps are naturals. -/
structure NoteMetadata where
  id : NoteId
  created : Nat
  last_updated : Nat
  path : VPath
  tags : List String
deriving DecidableEq, Repr

/-- `NoteMetadata::new`: `created == last_updated == now`. -/
def NoteMetadata.new (id : NoteId) (path : VPath) (tags : List String) (now : Nat) :
    NoteMetadata :=
  { id := id, created := now, last_updated := now, path := path, tags := tags }

/-! ## File system and blobs

The repository directory holds, per note, a content file `<id>.md` and a
metadata file `<id>.metadata`. A blob is either free text or a serialized
metadata record (the TOML round-trip in the source is lossless, so the
record itself stands for its serialization). -/

/-- A file name inside the repository directory. -/
abbrev FileName := String

/-- A file's content. -/
inductive Blob where
  | text (s : String)
  | meta (m : NoteMetadata)
deriving DecidableEq, Repr

/-- A directory of files: file name to blob. Doubles as a git tree and as
the git index (the engine is an opaque object store). -/
abbrev FsMap := List (FileName × Blob)

/-- `NoteMetadataStorage::get_note_storage_path` (the repository-relative
half; the absolute path adds the repository root). -/
def note_storage_path (id : NoteId) : FileName := id.render ++ ".md"

/-- `NoteMetadataStorage::get_note_metadata_path` (repository-relative). -/
def note_metadata_path (id : NoteId) : FileName := id.render ++ ".metadata"

/-- `NoteMetadata::load_all`: every `.metadata` file in the directory, in
directory order. -/
def load_all (fs : FsMap) : List NoteMetadata :=
  fs.filterMap (fun kv => match kv.2 with | .meta m => some m | .text _ => none)

/-! ## NoteMetadataStorage (`src/model.rs`) -/

/-- The note store: canonical `id → metadata` records plus the derived
`path → id` index. -/
structure NoteMetadataStorage where
  id_to_notes : List (NoteId × NoteMetadata)
  path_to_id : List (VPath × NoteId)
deriving DecidableEq, Repr

/-- The loop body of `NoteMetadataStorage::from_dir`. -/
def NoteMetadataStorage.insertNote (s : NoteMetadataStorage) (m : NoteMetadata) :
    NoteMetadataStorage :=
  { id_to_notes := ainsert m.id m s.id_to_notes
    path_to_id := ainsert m.path m.id s.path_to_id }

/-- `NoteMetadataStorage::from_dir`, abstracted over the already-scanned
metadata records. -/
def NoteMetadataStorage.from_list (notes : List NoteMetadata) : NoteMetadataStorage :=
  notes.foldl NoteMetadataStorage.insertNote ⟨[], []⟩

/-- `NoteMetadataStorage::from_dir` on a directory (scan then build). The
source's `from_dir_with_config` merely plumbs the configured repository
directory into this. -/
def NoteMetadataStorage.from_fs (fs : FsMap) : NoteMetadataStorage :=
  NoteMetadataStorage.from_list (load_all fs)

/-- `NoteMetadataStorage::try_resolve_id`: a token that parses as a
syntactically valid `NoteId` of an existing note resolves directly. -/
def NoteMetadataStorage.try_resolve_id (s : NoteMetadataStorage) (path : VPath) :
    Option NoteId :=
  match NoteId.from_str (VPath.render path) with
  | some id =>
    match alookup id s.id_to_notes with
    | some note => some note.id
    | none => none
  | none => none

/-- `NoteMetadataStorage::get_id`: ID interpretation first, then the path
map. -/
def NoteMetadataStorage.get_id (s : NoteMetadataStorage) (path : VPath) : Option NoteId :=
  match s.try_resolve_id path with
  | some id => some id
  | none => alookup path s.path_to_id

/-- `NoteMetadataStorage::get`. -/
def NoteMetadataStorage.get (s : NoteMetadataStorage) (path : VPath) : Option NoteMetadata :=
  match s.get_id path with
  | some id => alookup id s.id_to_notes
  | none => none

/-- `NoteMetadataStorage::get_by_id`. -/
def NoteMetadataStorage.get_by_id (s : NoteMetadataStorage) (id : NoteId) :
    Option NoteMetadata :=
  alookup id s.id_to_notes

/-- `NoteMetadataStorage::contains_path`. -/
def NoteMetadataStorage.contains_path (s : NoteMetadataStorage) (path : VPath) : Bool :=
  (alookup path s.path_to_id).isSome

/-- `NoteMetadataStorage::notes`: the canonical records, in map order. -/
def NoteMetadataStorage.notes (s : NoteMetadataStorage) : List NoteMetadata :=
  s.id_to_notes.map Prod.snd

/-- `NoteMetadataStorage::get_content`: resolve, then read `<id>.md`. -/
def NoteMetadataStorage.get_content (s : NoteMetadataStorage) (fs : FsMap) (path : VPath) :
    Option Blob :=
  match s.get_id path with
  | some id => alookup (note_storage_path id) fs
  | none => none

/-! ## NoteFileTree (`src/model.rs`)

The source's `Tree` node carries a `BTreeMap<OsString, NoteFileTree>`;
here the children are an assoc structure kept sorted by segment name
(`Children.cinsert` inserts at the ordered position, mirroring the
`entry` API). The tree borrows metadata in Rust; here it stores copies. -/

mutual
/-- `NoteFileTree`: leaf (`Note`) or interior node (`Tree`). -/
inductive NoteFileTree where
  | note (m : NoteMetadata)
  | tree (last_updated : Option Nat) (children : Children)

/-- The ordered children map of an interior node. -/
inductive Children where
  | nil
  | cons (name : String) (child : NoteFileTree) (rest : Children)
end

/-- Lexicographic order on character lists (by Unicode scalar value,
which agrees with the byte order of the UTF-8 encodings that the
`OsString` keys of the `BTreeMap` compare by). -/
def charListLt : List Char → List Char → Bool
  | [], [] => false
  | [], _ :: _ => true
  | _ :: _, [] => false
  | a :: as, b :: bs =>
    if a.toNat < b.toNat then true
    else if a.toNat = b.toNat then charListLt as bs
    else false

/-- The `OsString` key order of the children map. -/
def strLt (a b : String) : Bool := charListLt a.toList b.toList

/-- `BTreeMap::get` on the children. -/
def Children.clookup (name : String) : Children → Option NoteFileTree
  | .nil => none
  | .cons n c rest => if name = n then some c else Children.clookup name rest

/-- `BTreeMap` insert-or-replace on the children, keeping the keys
sorted. -/
def Children.cinsert (name : String) (t : NoteFileTree) : Children → Children
  | .nil => .cons name t .nil
  | .cons n c rest =>
    if name = n then .cons name t rest
    else if strLt name n then .cons name t (.cons n c rest)
    else .cons n c (Children.cinsert name t rest)

/-- `NoteFileTree::new`. -/
def NoteFileTree.new : NoteFileTree := .tree none .nil

/-- `NoteFileTree::is_leaf`. -/
def NoteFileTree.is_leaf : NoteFileTree → Bool
  | .note _ => true
  | .tree _ _ => false

/-- `NoteFileTree::is_tree`. -/
def NoteFileTree.is_tree : NoteFileTree → Bool
  | .note _ => false
  | .tree _ _ => true

/-- One note's insertion: the loop over `parts` in
`NoteFileTree::from_iter_with_config`. At each segment the child entry is
fetched or created (`entry(..).or_insert_with(..)` — a new entry is a
leaf at the last segment, otherwise a fresh interior node), the current
node's rolled-up `last_updated` is raised, and the walk descends;
descending into an existing leaf aborts the whole construction. -/
def NoteFileTree.insertParts (nm : NoteMetadata) : List String → NoteFileTree → Option NoteFileTree
  | [], t => some t
  | _ :: _, .note _ => none
  | part :: rest, .tree lu cs =>
    let entry := match Children.clookup part cs with
      | some c => c
      | none => if rest.isEmpty then .note nm else .tree (some nm.last_updated) .nil
    let lu' : Option Nat := match lu with
      | some d => some (max d nm.last_updated)
      | none => some nm.last_updated
    match NoteFileTree.insertParts nm rest entry with
    | some entry' => some (.tree lu' (Children.cinsert part entry' cs))
    | none => none

/-- The fold of `NoteFileTree::from_iter_with_config` over the notes. -/
def NoteFileTree.from_iter_aux (t : NoteFileTree) : List NoteMetadata → Option NoteFileTree
  | [] => some t
  | n :: rest =>
    match NoteFileTree.insertParts n n.path t with
    | some t' => NoteFileTree.from_iter_aux t' rest
    | none => none

/-- `NoteFileTree::from_iter` (the default config: both the by-date and
by-tags regroupings off, so each note is inserted at its own virtual
path). -/
def NoteFileTree.from_iter (notes : List NoteMetadata) : Option NoteFileTree :=
  NoteFileTree.from_iter_aux NoteFileTree.new notes

/-- Descend along segments (the loop body of `NoteFileTree::find`). -/
def NoteFileTree.entryAt : NoteFileTree → VPath → Option NoteFileTree
  | t, [] => some t
  | .note _, _ :: _ => none
  | .tree _ cs, p :: ps =>
    match Children.clookup p cs with
    | some c => NoteFileTree.entryAt c ps
    | none => none

/-- `NoteFileTree::find`: the empty prefix returns the whole tree,
otherwise the descent must consume every segment. -/
def NoteFileTree.find (t : NoteFileTree) (path : VPath) : Option NoteFileTree :=
  match path with
  | [] => some t
  | _ :: _ => t.entryAt path

/-- The note stored at an exact path, if that entry is a leaf. -/
def NoteFileTree.isNoteAt (t : NoteFileTree) (q : VPath) : Option NoteMetadata :=
  match t.entryAt q with
  | some (.note m) => some m
  | _ => none

/-- Leaf collection over a children list (the body of
`NoteFileTree::walk` specialised to the planner's visitors: a leaf child
contributes its `parent.join(name)` path, an interior child is walked
with the extended parent path). -/
def Children.leafPathsL (parent : VPath) : Children → List VPath
  | .nil => []
  | .cons name (.note _) rest => (parent ++ [name]) :: Children.leafPathsL parent rest
  | .cons name (.tree _ cs) rest =>
    Children.leafPathsL (parent ++ [name]) cs ++ Children.leafPathsL parent rest

/-- The `parent.join(name)` path of every leaf below a node, in walk
(child-name) order, relative to the walked root. -/
def NoteFileTree.leafPaths (parent : VPath) : NoteFileTree → List VPath
  | .note _ => []
  | .tree _ cs => Children.leafPathsL parent cs

/-! ## Glob matching (`globset` collaborator)

`App::create_glob_paths` compiles the user pattern with `globset::Glob`
and matches it against whole rendered paths during a tree walk. Only the
`*` wildcard is exercised by this development; with `globset`'s defaults
`*` matches any character sequence. Pattern compilation failures
(`Glob::new` errors) do not arise for the patterns considered here. -/

/-- Glob matching over characters: `*` matches any sequence, every other
pattern character matches itself. The extra `Nat` argument is fuel making
the recursion structural; each step consumes at least one pattern or path
character, so `pattern.length + path.length + 1` units always suffice. -/
def globChars : Nat → List Char → List Char → Bool
  | 0, _, _ => false
  | _ + 1, [], [] => true
  | _ + 1, [], _ :: _ => false
  | f + 1, '*' :: ps, [] => globChars f ps []
  | f + 1, '*' :: ps, c :: s => globChars f ps (c :: s) || globChars f ('*' :: ps) s
  | _ + 1, _ :: _, [] => false
  | f + 1, p :: ps, c :: s => (p = c) && globChars f ps s

/-- `GlobMatcher::is_match` on a rendered path. -/
def globMatch (pattern : String) (path : String) : Bool :=
  globChars (pattern.length + path.length + 1) pattern.toList path.toList

/-- The walk inside `App::create_glob_paths` over a children list: each
visited node's `working_dir.join(parent).join(name)` path is matched; a
match collects the path and prunes the subtree, a non-match descends. -/
def Children.globCollectL (pattern : String) (base parent : VPath) :
    Children → List VPath
  | .nil => []
  | .cons name (.note _) rest =>
    (if globMatch pattern (VPath.render (base ++ parent ++ [name])) then
       [base ++ parent ++ [name]]
     else [])
    ++ Children.globCollectL pattern base parent rest
  | .cons name (.tree _ cs) rest =>
    (if globMatch pattern (VPath.render (base ++ parent ++ [name])) then
       [base ++ parent ++ [name]]
     else Children.globCollectL pattern base (parent ++ [name]) cs)
    ++ Children.globCollectL pattern base parent rest

/-- The glob walk from a subtree root. -/
def NoteFileTree.globCollect (pattern : String) (base parent : VPath) :
    NoteFileTree → List VPath
  | .note _ => []
  | .tree _ cs => Children.globCollectL pattern base parent cs

/-! ## Transactional command interpreter (`src/command.rs`)

The interpreter state: working tree, on-disk git index, lazily opened
index (`CommandInterpreter::index`), HEAD tree, commit log, the cached
note store, the ordered-deduplicated commit-message lines and the
touched-file list. `now` is the value `Local::now()` reads. -/

/-- A commit-message line, kept structured (the source formats these into
strings; no property here depends on the rendering). -/
inductive MsgLine where
  | updated (path : String)
  | moved (source destination : String)
  | deleted (path : String)
  | addedResource (path : String)
deriving DecidableEq, Repr

/-- `OrderedSet::insert`: append if not already present. -/
def msgInsert (l : List MsgLine) (m : MsgLine) : List MsgLine :=
  if m ∈ l then l else l ++ [m]

/-- The `CommandError` cases exercised by the modelled commands (payload
strings kept where a property mentions them). -/
inductive CErr where
  | failedToEditNote
  | failedToRemoveNote
  | failedToUpdateMetadata
  | noteNotFound (what : String)
  | noteExistsAtDestination (path : VPath)
  | git
deriving DecidableEq, Repr

/-- Whether two git trees differ in at least one file: the model of
`has_git_diff` (`diff_tree_to_tree` followed by `files_changed() > 0`). -/
def fsDiffers (a b : FsMap) : Bool :=
  ((a.map Prod.fst) ++ (b.map Prod.fst)).any fun k => decide (alookup k a ≠ alookup k b)

/-- `CommandInterpreter` state (plus the repository it owns). -/
structure CI where
  fs : FsMap
  diskIndex : FsMap
  openIndex : Option FsMap
  head : Option FsMap
  commits : List (FsMap × List MsgLine)
  storage : Option NoteMetadataStorage
  commit_message_lines : List MsgLine
  changed_files : List FileName
  now : Nat
deriving DecidableEq, Repr

/-- The open index, lazily falling back to the on-disk one
(`CommandInterpreter::index` / `get_or_insert_with`). -/
def CI.indexMap (s : CI) : FsMap := s.openIndex.getD s.diskIndex

/-- Force the lazy index open. -/
def CI.openTheIndex (s : CI) : CI := { s with openIndex := some s.indexMap }

/-- `index.add_path(f); index.write()`: stages the working-tree blob at
`f` (a missing file is a git error) and persists the index. -/
def CI.stageAdd (s : CI) (f : FileName) : CI × Option CErr :=
  match alookup f s.fs with
  | some b =>
    let i := ainsert f b s.indexMap
    ({ s with openIndex := some i, diskIndex := i }, none)
  | none => (s, some .git)

/-- `index.remove_path(f); index.write()`. -/
def CI.stageRemove (s : CI) (f : FileName) : CI :=
  let i := aremove f s.indexMap
  { s with openIndex := some i, diskIndex := i }

/-- `CommandInterpreter::note_metadata_storage_mut`: the cached store, or
a fresh load from the repository directory. -/
def CI.loadStorage (s : CI) : CI × NoteMetadataStorage :=
  match s.storage with
  | some st => (s, st)
  | none =>
    let st := NoteMetadataStorage.from_fs s.fs
    ({ s with storage := some st }, st)

/-- `CommandInterpreter::get_note_id`. -/
def CI.get_note_id (s : CI) (p : VPath) : CI × Except CErr NoteId :=
  match s.loadStorage with
  | (s, st) =>
    match st.get_id p with
    | some id => (s, .ok id)
    | none => (s, .error (.noteNotFound (VPath.render p)))

/-- `CommandInterpreter::get_note_path`. -/
def CI.get_note_path (s : CI) (id : NoteId) : CI × Except CErr VPath :=
  match s.loadStorage with
  | (s, st) =>
    match st.get_by_id id with
    | some m => (s, .ok m.path)
    | none => (s, .error (.noteNotFound id.render))

/-- `CommandInterpreter::has_git_changes`: the tree the open index would
write, diffed against HEAD (an unborn HEAD is a git error). -/
def CI.has_git_changes (s : CI) : CI × Except CErr Bool :=
  let s := s.openTheIndex
  match s.head with
  | some h => (s, .ok (fsDiffers h s.indexMap))
  | none => (s, .error .git)

/-- `CommandInterpreter::try_change_last_updated`: only when the staged
tree differs from HEAD, bump `last_updated`, save and stage the metadata
file, and record it as touched. -/
def CI.try_change_last_updated (s : CI) (id : NoteId) : CI × Except CErr Bool :=
  match s.has_git_changes with
  | (s, .error e) => (s, .error e)
  | (s, .ok false) => (s, .ok false)
  | (s, .ok true) =>
    match s.loadStorage with
    | (s, st) =>
      match alookup id st.id_to_notes with
      | none => (s, .error (.noteNotFound id.render))
      | some m =>
        let m' := { m with last_updated := s.now }
        let st' : NoteMetadataStorage := { st with id_to_notes := ainsert id m' st.id_to_notes }
        let s := { s with storage := some st'
                          fs := ainsert (note_metadata_path id) (.meta m') s.fs }
        match s.stageAdd (note_metadata_path id) with
        | (s, some e) => (s, .error e)
        | (s, none) =>
          ({ s with changed_files := s.changed_files ++ [note_metadata_path id] }, .ok true)

/-- `CommandInterpreter::change_note_metadata`: apply a mutation to the
cached record; when the mutation reports a change, save and stage the
metadata file and record it as touched. Failures are wrapped as
metadata-update errors. The derived `path → id` index of the cached store
is *not* refreshed. -/
def CI.change_note_metadata (s : CI) (id : NoteId) (apply : NoteMetadata → NoteMetadata × Bool) :
    CI × Option CErr :=
  match s.loadStorage with
  | (s, st) =>
    match alookup id st.id_to_notes with
    | none => (s, some .failedToUpdateMetadata)
    | some m =>
      let (m', changed) := apply m
      let st' : NoteMetadataStorage := { st with id_to_notes := ainsert id m' st.id_to_notes }
      let s := { s with storage := some st' }
      if changed then
        let s := { s with fs := ainsert (note_metadata_path id) (.meta m') s.fs }
        match s.stageAdd (note_metadata_path id) with
        | (s, some _) => (s, some .failedToUpdateMetadata)
        | (s, none) =>
          ({ s with changed_files := s.changed_files ++ [note_metadata_path id] }, none)
      else (s, none)

/-- `CommandInterpreter::change_note_tags`: clear then append, each
independently optional; either one counts as a change. -/
def CI.change_note_tags (s : CI) (id : NoteId) (clear_tags : Bool) (add_tags : List String) :
    CI × Option CErr :=
  s.change_note_metadata id fun m =>
    let (tags1, changed1) := if clear_tags then (([] : List String), true) else (m.tags, false)
    let (tags2, changed2) := if add_tags.isEmpty then (tags1, changed1) else (tags1 ++ add_tags, true)
    ({ m with tags := tags2 }, changed2)

/-- `CommandInterpreter::edited_file`: stage and record as touched. -/
def CI.edited_file (s : CI) (f : FileName) : CI × Option CErr :=
  match s.stageAdd f with
  | (s, some e) => (s, some e)
  | (s, none) => ({ s with changed_files := s.changed_files ++ [f] }, none)

/-- `CommandInterpreter::remove_note`: resolve, delete both on-disk
files, unstage both, record a message line, and record the *metadata*
path as touched. (The symbolic link removal is best-effort and not
modelled.) -/
def CI.remove_note (s : CI) (path : VPath) : CI × Option CErr :=
  match s.get_note_id path with
  | (s, .error e) => (s, some e)
  | (s, .ok id) =>
    match s.get_note_path id with
    | (s, .error e) => (s, some e)
    | (s, .ok real_path) =>
      match alookup (note_storage_path id) s.fs with
      | none => (s, some .failedToRemoveNote)
      | some _ =>
        let s := { s with fs := aremove (note_storage_path id) s.fs }
        match alookup (note_metadata_path id) s.fs with
        | none => (s, some .failedToRemoveNote)
        | some _ =>
          let s := { s with fs := aremove (note_metadata_path id) s.fs }
          let s := s.stageRemove (note_storage_path id)
          let s := s.stageRemove (note_metadata_path id)
          ({ s with
              commit_message_lines :=
                msgInsert s.commit_message_lines (.deleted (VPath.render real_path))
              changed_files := s.changed_files ++ [note_metadata_path id] }, none)

/-- The output of the external editor collaborator: the content it left
in the file and the resources it attached. -/
structure EditorOutput where
  content : String
  added_resources : List String

/-- The external collaborators of the interpreter: the editor launch
function and the historical-content fetcher (`GitContentFetcher`). -/
structure Collab where
  editor : VPath → String → EditorOutput
  fetch : VPath → String → Except Unit (Option String)

/-- The resources root (the `RESOURCES_DIR` constant is declared in a
module revision not present here; its exact value is immaterial). -/
def RESOURCES_DIR : String := "resources"

/-- `CommandInterpreter::add_resources_from_editor_output`: stage each
attached resource and record a message line. -/
def CI.add_resources_from_editor_output (s : CI) : List String → CI × Option CErr
  | [] => (s, none)
  | r :: rest =>
    match s.stageAdd (RESOURCES_DIR ++ "/" ++ r) with
    | (s, some e) => (s, some e)
    | (s, none) =>
      let s := { s with
        commit_message_lines := msgInsert s.commit_message_lines (.addedResource r) }
      s.add_resources_from_editor_output rest

/-- The primitive commands exercised by the properties below (the
add/run-snippet/resource/undo primitives are outside every claim). -/
inductive Command where
  | editNoteContent (path : VPath) (history : Option String)
      (clear_tags : Bool) (add_tags : List String)
  | editNoteSetContent (path : VPath) (clear_tags : Bool)
      (add_tags : List String) (content : String)
  | moveNote (source destination : VPath) (force : Bool)
  | removeNote (path : VPath)
  | commit
deriving DecidableEq, Repr

/-- `Command::EditNoteSetContent`: write the supplied content, stage it,
apply tag changes, conditionally bump `last_updated`, and
(unconditionally) record an "updated" message line. -/
def CI.stepEditSet (s : CI) (path : VPath) (clear_tags : Bool) (add_tags : List String)
    (content : String) : CI × Option CErr :=
  match s.get_note_id path with
  | (s, .error e) => (s, some e)
  | (s, .ok id) =>
    let s := { s with fs := ainsert (note_storage_path id) (.text content) s.fs }
    match s.edited_file (note_storage_path id) with
    | (s, some e) => (s, some e)
    | (s, none) =>
      match s.change_note_tags id clear_tags add_tags with
      | (s, some e) => (s, some e)
      | (s, none) =>
        match s.try_change_last_updated id with
        | (s, .error e) => (s, some e)
        | (s, .ok _) =>
          match s.get_note_path id with
          | (s, .error e) => (s, some e)
          | (s, .ok real_path) =>
            ({ s with commit_message_lines :=
                msgInsert s.commit_message_lines (.updated (VPath.render real_path)) }, none)

/-- `Command::EditNoteContent`: optionally overwrite the file with a
historical version, run the external editor on it, stage the result,
apply tag changes, conditionally bump `last_updated`, record an "updated"
line only if something changed, and stage any attached resources. -/
def CI.stepEdit (collab : Collab) (s : CI) (path : VPath) (history : Option String)
    (clear_tags : Bool) (add_tags : List String) : CI × Option CErr :=
  match s.get_note_id path with
  | (s, .error e) => (s, some e)
  | (s, .ok id) =>
    match s.get_note_path id with
    | (s, .error e) => (s, some e)
    | (s, .ok note_path) =>
      let fetched : Except CErr CI :=
        match history with
        | none => .ok s
        | some h =>
          match collab.fetch note_path h with
          | .error _ => .error .failedToEditNote
          | .ok none => .error .failedToEditNote
          | .ok (some c) =>
            .ok { s with fs := ainsert (note_storage_path id) (.text c) s.fs }
      match fetched with
      | .error e => (s, some e)
      | .ok s =>
        let current := match alookup (note_storage_path id) s.fs with
          | some (.text t) => t
          | _ => ""
        let out := collab.editor note_path current
        let s := { s with fs := ainsert (note_storage_path id) (.text out.content) s.fs }
        match s.edited_file (note_storage_path id) with
        | (s, some e) => (s, some e)
        | (s, none) =>
          match s.change_note_tags id clear_tags add_tags with
          | (s, some e) => (s, some e)
          | (s, none) =>
            match s.try_change_last_updated id with
            | (s, .error e) => (s, some e)
            | (s, .ok changed) =>
              let s := if changed then
                  { s with commit_message_lines :=
                      msgInsert s.commit_message_lines (.updated (VPath.render note_path)) }
                else s
              s.add_resources_from_editor_output out.added_resources

/-- `Command::MoveNote`: resolve the source; a resolvable destination is
removed first under `force` and is an error otherwise; then the
metadata's virtual path is rewritten in place, `last_updated`
conditionally bumped, and a "moved" line recorded. -/
def CI.stepMove (s : CI) (source destination : VPath) (force : Bool) : CI × Option CErr :=
  match s.get_note_id source with
  | (s, .error e) => (s, some e)
  | (s, .ok id) =>
    match s.get_note_path id with
    | (s, .error e) => (s, some e)
    | (s, .ok real_source_path) =>
      match s.loadStorage with
      | (s, _) =>
        match s.get_note_id destination with
        | (s, dres) =>
          let afterDest : CI × Option CErr :=
            if dres.isOk then
              if force then s.remove_note destination
              else (s, some (.noteExistsAtDestination destination))
            else (s, none)
          match afterDest with
          | (s, some e) => (s, some e)
          | (s, none) =>
            match s.change_note_metadata id (fun m => ({ m with path := destination }, true)) with
            | (s, some e) => (s, some e)
            | (s, none) =>
              match s.try_change_last_updated id with
              | (s, .error e) => (s, some e)
              | (s, .ok _) =>
                let line := MsgLine.moved (VPath.render real_source_path) (VPath.render destination)
                ({ s with commit_message_lines := msgInsert s.commit_message_lines line }, none)

/-- `Command::Commit`: write the tree of the (lazily opened) index; a
first commit is always created, otherwise one is created only when the
candidate tree differs from the HEAD tree; creation flushes the message
lines and resets the open index, the store cache and the touched list. -/
def CI.stepCommit (s : CI) : CI × Option CErr :=
  let s := s.openTheIndex
  let new_tree := s.indexMap
  let doCommit : Bool :=
    match s.head with
    | some h => fsDiffers h new_tree
    | none => true
  if doCommit then
    ({ s with
        commits := s.commits ++ [(new_tree, s.commit_message_lines)]
        head := some new_tree
        commit_message_lines := []
        openIndex := none
        storage := none
        changed_files := [] }, none)
  else (s, none)

/-- Dispatch of `CommandInterpreter::execute` for one command. -/
def CI.runCmd (collab : Collab) (s : CI) : Command → CI × Option CErr
  | .editNoteContent p h ct adds => s.stepEdit collab p h ct adds
  | .editNoteSetContent p ct adds c => s.stepEditSet p ct adds c
  | .moveNote src dst f => s.stepMove src dst f
  | .removeNote p => s.remove_note p
  | .commit => s.stepCommit

/-- `CommandInterpreter::execute`: run the batch, stopping at the first
failing primitive (the state reached so far is kept). -/
def CI.execute (collab : Collab) (s : CI) : List Command → CI × Option CErr
  | [] => (s, none)
  | c :: rest =>
    match s.runCmd collab c with
    | (s, some e) => (s, some e)
    | (s, none) => s.execute collab rest

/-- `CommandInterpreter::reset` (rollback): check out the HEAD version of
exactly the recorded touched paths (a touched path absent from HEAD is
deleted), reset the index to the HEAD tree, then clear the touched list
and the pending message lines. -/
def CI.reset (s : CI) : CI × Option CErr :=
  match s.head with
  | none => (s, some .git)
  | some h =>
    let fs' := s.changed_files.foldl
      (fun fs p =>
        match alookup p h with
        | some b => ainsert p b fs
        | none => aremove p fs) s.fs
    ({ s with fs := fs', diskIndex := h, changed_files := [], commit_message_lines := [] },
      none)

/-- `CommandInterpreter::new_commit` (the `new_transaction` boundary):
discard the open index and pending message lines. -/
def CI.new_commit (s : CI) : CI :=
  { s with openIndex := none, commit_message_lines := [] }

/-! ## Batch operation planner (`src/app.rs`) -/

/-- `App::create_glob_paths`: match the compiled pattern against every
node of the working directory's subtree, collecting matched paths and
pruning below a match; no subtree at the working directory yields no
expansion. -/
def create_glob_paths (working_dir : VPath) (tree : Option NoteFileTree) (pattern : String) :
    Option (List VPath) :=
  match tree with
  | some t =>
    match t.find working_dir with
    | some sub => some (sub.globCollect pattern working_dir [])
    | none => none
  | none => none

/-- The non-directory-source fallback of the `inner` closure in
`App::create_move_commands`: a single note moved onto an existing
interior node goes *into* that directory under its own file name,
otherwise the destination is taken literally. -/
def move_inner_fallback (tree : Option NoteFileTree) (force : Bool)
    (source destination : VPath) : List Command :=
  match tree.bind (fun t => t.find destination), source.getLast? with
  | some dsub, some fname =>
    if dsub.is_tree then [Command.moveNote source (destination ++ [fname]) force]
    else [Command.moveNote source destination force]
  | _, _ => [Command.moveNote source destination force]

/-- The `inner` closure of `App::create_move_commands`: a source that
resolves to an interior node expands to one move per descendant leaf,
preserving each leaf's relative path. -/
def move_inner (tree : Option NoteFileTree) (force : Bool)
    (source destination : VPath) : List Command :=
  match tree.bind (fun t => t.find source) with
  | some sub =>
    if sub.is_tree then
      (sub.leafPaths []).map fun p => Command.moveNote (source ++ p) (destination ++ p) force
    else move_inner_fallback tree force source destination
  | none => move_inner_fallback tree force source destination

/-- `App::create_move_commands`: glob sources are expanded against the
working directory's subtree first, each match planned independently. -/
def create_move_commands (st : NoteMetadataStorage) (working_dir source destination : VPath)
    (force : Bool) : List Command :=
  let tree := NoteFileTree.from_iter st.notes
  if (VPath.render source).toList.contains '*' then
    match create_glob_paths working_dir tree (VPath.render source) with
    | some glob_paths => (glob_paths.map fun p => move_inner tree force p destination).flatten
    | none => move_inner tree force source destination
  else move_inner tree force source destination

/-- The `inner` closure of `App::create_remove_commands`: an interior
node with `recursive` expands to one removal per descendant leaf;
everything else becomes a single literal `RemoveNote`. -/
def remove_inner (tree : Option NoteFileTree) (recursive : Bool) (path : VPath) :
    List Command :=
  match tree.bind (fun t => t.find path) with
  | some sub =>
    if sub.is_tree && recursive then
      (sub.leafPaths []).map fun q => Command.removeNote (path ++ q)
    else [Command.removeNote path]
  | none => [Command.removeNote path]

/-- `App::create_remove_commands`. -/
def create_remove_commands (st : NoteMetadataStorage) (working_dir path : VPath)
    (recursive : Bool) : List Command :=
  let tree := NoteFileTree.from_iter st.notes
  if (VPath.render path).toList.contains '*' then
    match create_glob_paths working_dir tree (VPath.render path) with
    | some glob_paths => (glob_paths.map (remove_inner tree recursive)).flatten
    | none => remove_inner tree recursive path
  else remove_inner tree recursive path

/-- `NoteMetadataStorage::resolve_path` under the working-directory
resolver. Modelled from the spec: the resolver implementation for the
virtual-working-directory strategy lives in a module revision not present
here; per the spec a token that parses as an existing note's ID resolves
to that ID's textual form, and otherwise the token is interpreted
relative to the virtual working directory (the root when none is set). -/
def resolve_path_wd (st : NoteMetadataStorage) (wd : Option VPath) (path : VPath) : VPath :=
  match st.try_resolve_id path with
  | some id => [id.render]
  | none =>
    match wd with
    | none => path
    | some w => w ++ path

/-- `App::run` for `InputCommand::Move` in the auto-commit (one-shot)
flow: load the store, resolve the tokens, plan, then execute the planned
batch followed by `Commit`. -/
def appMove (collab : Collab) (wd : Option VPath) (s : CI)
    (source destination : VPath) (force : Bool) : CI × Option CErr :=
  let st := NoteMetadataStorage.from_fs s.fs
  let working_dir := resolve_path_wd st wd []
  let source := resolve_path_wd st wd source
  let destination := resolve_path_wd st wd destination
  let cmds := create_move_commands st working_dir source destination force
  s.execute collab (cmds ++ [Command.commit])

/-- `App::run` for `InputCommand::Remove` in the auto-commit (one-shot)
flow. -/
def appRemove (collab : Collab) (wd : Option VPath) (s : CI)
    (path : VPath) (recursive : Bool) : CI × Option CErr :=
  let st := NoteMetadataStorage.from_fs s.fs
  let working_dir := resolve_path_wd st wd []
  let path := resolve_path_wd st wd path
  let cmds := create_remove_commands st working_dir path recursive
  s.execute collab (cmds ++ [Command.commit])

/-! ## Concrete fixtures

Small concrete stores used by the concrete theorems below. A repository
with committed notes is modelled by a state whose working tree, on-disk
index and HEAD tree agree. -/

/-- A concrete id. -/
def idA : NoteId := ⟨['1', '1', '1', '1', '1', '1']⟩

/-- A concrete id. -/
def idB : NoteId := ⟨['2', '2', '2', '2', '2', '2']⟩

/-- A concrete id whose textual form is `123456`. -/
def idC : NoteId := ⟨['1', '2', '3', '4', '5', '6']⟩

/-- A note at `2023/x`. -/
def nA : NoteMetadata :=
  { id := idA, created := 0, last_updated := 0, path := ["2023", "x"], tags := [] }

/-- A note at `2024/x`. -/
def nB : NoteMetadata :=
  { id := idB, created := 0, last_updated := 0, path := ["2024", "x"], tags := [] }

/-- The repository directory holding exactly the notes of `notes`, with
the given content files. -/
def mkFs (notes : List (NoteMetadata × String)) : FsMap :=
  notes.flatMap fun nm =>
    [(note_storage_path nm.1.id, Blob.text nm.2), (note_metadata_path nm.1.id, Blob.meta nm.1)]

/-- A fully committed, quiescent interpreter state over a directory. -/
def mkState (fs : FsMap) : CI :=
  { fs := fs
    diskIndex := fs
    openIndex := none
    head := some fs
    commits := [(fs, [])]
    storage := none
    commit_message_lines := []
    changed_files := []
    now := 5 }

/-- The collaborators of a batch in which no interactive editor runs: an
editor that leaves the file unchanged and attaches nothing, and a fetcher
that is never consulted. -/
def noCollab : Collab :=
  { editor := fun _ c => { content := c, added_resources := [] }
    fetch := fun _ _ => .error () }

/-- The store of the glob-move scenario: exactly `2023/x` and `2024/x`. -/
def fs7 : FsMap := mkFs [(nA, "a"), (nB, "b")]

/-- The initial state of the glob-move scenario. -/
def s7 : CI := mkState fs7

/-- A note whose id renders as `123456`. -/
def nShadowTarget : NoteMetadata :=
  { id := idC, created := 0, last_updated := 0, path := ["c"], tags := [] }

/-- A note whose virtual path is the single segment `123456` — the
textual form of `nShadowTarget`'s identifier. -/
def nShadowed : NoteMetadata :=
  { id := idB, created := 0, last_updated := 0, path := ["123456"], tags := [] }

/-! # Properties -/

/-- **C7.** Starting from a store containing exactly the notes at
`2023/x` and `2024/x`, moving the glob pattern `202*` to `2025` without
force succeeds: the planner emits one move per matched note preserving
the filename, both notes end at `2025/x`, and exactly one commit is
recorded for the whole batch. -/
theorem C7_glob_move_scenario :
    (appMove noCollab none s7 ["202*"] ["2025"] false).2 = none ∧
    create_move_commands (NoteMetadataStorage.from_fs s7.fs) [] ["202*"] ["2025"] false =
      [Command.moveNote ["2023", "x"] ["2025", "x"] false,
       Command.moveNote ["2024", "x"] ["2025", "x"] false] ∧
    ((NoteMetadataStorage.from_fs
        (appMove noCollab none s7 ["202*"] ["2025"] false).1.fs).get_by_id idA).map
        NoteMetadata.path = some ["2025", "x"] ∧
    ((NoteMetadataStorage.from_fs
        (appMove noCollab none s7 ["202*"] ["2025"] false).1.fs).get_by_id idB).map
        NoteMetadata.path = some ["2025", "x"] ∧
    (appMove noCollab none s7 ["202*"] ["2025"] false).1.commits.length =
      s7.commits.length + 1 := by
  decide

/-- **C8, counterexample.** `NoteId` parsing does *not* reject every
string outside the 6-decimal-digit set: six Arabic-Indic digits U+0660
(each failing `Char.isDigit`) parse successfully, because the source
validates with `char::is_numeric`, which accepts every Unicode numeric
character. -/
theorem C8_counterexample :
    NoteId.from_str (String.mk (List.replicate 6 (Char.ofNat 0x660))) =
      some ⟨List.replicate 6 (Char.ofNat 0x660)⟩ ∧
    (String.mk (List.replicate 6 (Char.ofNat 0x660))).toList.all Char.isDigit = false := by
  decide

/-- `String.mk` after `String.toList` is the identity. -/
theorem stringMk_toList (s : String) : String.mk s.toList = s := rfl

/-- Every entry of the `CHARACTERS` sampling table is numeric. -/
theorem noteIdCHARACTERS_numeric (d : Fin 10) :
    charIsNumeric (noteIdCHARACTERS.getD d.val '0') = true := by
  fin_cases d <;> decide

/-- **C8, amended.** `NoteId` parsing succeeds exactly on strings of 6
characters that are all numeric per `char::is_numeric` (a strict superset
of the decimal digits, see the counterexample); parsing is a left inverse
of rendering on every parsed id, and every randomly generated id
round-trips through its textual form. -/
theorem C8_parse_roundtrip :
    (∀ s : String, (NoteId.from_str s).isSome = true ↔
        (s.toList.length = NOTE_ID_SIZE ∧ s.toList.all charIsNumeric = true)) ∧
    (∀ (s : String) (id : NoteId), NoteId.from_str s = some id →
        id.render = s ∧ NoteId.from_str id.render = some id) ∧
    (∀ sample : Fin NOTE_ID_SIZE → Fin 10,
        NoteId.from_str (NoteId.new sample).render = some (NoteId.new sample)) := by
  have hiff : ∀ s : String, (NoteId.from_str s).isSome = true ↔
      (s.toList.length = NOTE_ID_SIZE ∧ s.toList.all charIsNumeric = true) := by
    intro s
    unfold NoteId.from_str NoteId.from_vec
    split_ifs with h1 h2 <;> simp_all
  refine ⟨hiff, ?_, ?_⟩
  · intro s id h
    have hid : id = ⟨s.toList⟩ := by
      unfold NoteId.from_str NoteId.from_vec at h
      split_ifs at h with h1 h2
      · cases h; rfl
    subst hid
    exact ⟨rfl, h⟩
  · intro sample
    have hlen : ((NoteId.new sample).chars).length = NOTE_ID_SIZE := by
      simp [NoteId.new, NOTE_ID_SIZE]
    have hall : ((NoteId.new sample).chars).all charIsNumeric = true := by
      simp only [NoteId.new]
      rw [List.all_eq_true]
      intro c hc
      rw [List.mem_ofFn] at hc
      obtain ⟨i, rfl⟩ := hc
      exact noteIdCHARACTERS_numeric (sample i)
    have hred : NoteId.from_str (NoteId.new sample).render
        = NoteId.from_vec (NoteId.new sample).chars := rfl
    rw [hred]
    unfold NoteId.from_vec
    simp [hlen, hall]

/-- Witness for the amended C8 at the concrete string `123456`. -/
theorem C8_parse_roundtrip_witness :
    NoteId.from_str "123456" = some idC ∧
    (idC.render = "123456" ∧ NoteId.from_str idC.render = some idC) :=
  ⟨by decide, C8_parse_roundtrip.2.1 "123456" idC (by decide)⟩

/-- Auxiliary invariant for `from_list_key`: folding `insertNote` keeps
every record keyed by its own id. -/
theorem from_list_key_aux (notes : List NoteMetadata) :
    ∀ (init : NoteMetadataStorage),
      (∀ k' m', alookup k' init.id_to_notes = some m' → m'.id = k') →
      ∀ k' m', alookup k' ((notes.foldl NoteMetadataStorage.insertNote init).id_to_notes)
        = some m' → m'.id = k' := by
  induction notes with
  | nil => intro init hinit; exact hinit
  | cons n rest ih =>
    intro init hinit
    simp only [List.foldl_cons]
    apply ih
    intro k' m' hl
    unfold NoteMetadataStorage.insertNote at hl
    by_cases hk : k' = n.id
    · subst hk
      rw [alookup_ainsert_self] at hl
      cases hl; rfl
    · rw [alookup_ainsert_ne _ _ _ _ hk] at hl
      exact hinit _ _ hl

/-- Every record reachable from the `id → metadata` map of a built store
is keyed by its own id. -/
theorem from_list_key {notes : List NoteMetadata} {k : NoteId} {m : NoteMetadata}
    (h : alookup k (NoteMetadataStorage.from_list notes).id_to_notes = some m) : m.id = k :=
  from_list_key_aux notes ⟨[], []⟩ (by intro k' m' h'; simp [alookup] at h') k m h

/-- **C9.** ID interpretation shadows the path map: when a path's
rendered form parses as the identifier of an existing note, `get_id`,
`get` and content reads all resolve to the note with that identifier, and
no other id — in particular not the note actually stored at that path —
can be reached through this path. -/
theorem C9_id_shadowing (notes : List NoteMetadata) (p : VPath) (X : NoteId) (m : NoteMetadata)
    (hparse : NoteId.from_str (VPath.render p) = some X)
    (hm : alookup X (NoteMetadataStorage.from_list notes).id_to_notes = some m) :
    (NoteMetadataStorage.from_list notes).get_id p = some X ∧
    (NoteMetadataStorage.from_list notes).get p = some m ∧
    (∀ fs : FsMap, (NoteMetadataStorage.from_list notes).get_content fs p =
      alookup (note_storage_path X) fs) ∧
    (∀ B : NoteId, B ≠ X → (NoteMetadataStorage.from_list notes).get_id p ≠ some B) := by
  have hid : m.id = X := from_list_key hm
  have htry : (NoteMetadataStorage.from_list notes).try_resolve_id p = some X := by
    unfold NoteMetadataStorage.try_resolve_id
    simp only [hparse, hm, hid]
  have hget : (NoteMetadataStorage.from_list notes).get_id p = some X := by
    unfold NoteMetadataStorage.get_id
    simp only [htry]
  refine ⟨hget, ?_, ?_, ?_⟩
  · unfold NoteMetadataStorage.get
    simp only [hget]
    exact hm
  · intro fs
    unfold NoteMetadataStorage.get_content
    simp only [hget]
  · intro B hB
    rw [hget]
    simp [hB.symm]

/-- Witness for C9: the store holding `nShadowTarget` (id `123456` at
path `c`) and `nShadowed` (at path `123456`); looking up the path
`123456` reaches `nShadowTarget`, never `nShadowed`. -/
theorem C9_id_shadowing_witness :
    NoteId.from_str (VPath.render ["123456"]) = some idC ∧
    ((NoteMetadataStorage.from_list [nShadowTarget, nShadowed]).get_id ["123456"] = some idC ∧
     (NoteMetadataStorage.from_list [nShadowTarget, nShadowed]).get ["123456"] =
       some nShadowTarget ∧
     (∀ fs : FsMap,
        (NoteMetadataStorage.from_list [nShadowTarget, nShadowed]).get_content fs ["123456"] =
        alookup (note_storage_path idC) fs) ∧
     (∀ B : NoteId, B ≠ idC →
        (NoteMetadataStorage.from_list [nShadowTarget, nShadowed]).get_id ["123456"] ≠
          some B)) :=
  ⟨by decide,
   C9_id_shadowing [nShadowTarget, nShadowed] ["123456"] idC nShadowTarget
     (by decide) (by decide)⟩

/-- A tree never differs from itself. -/
theorem fsDiffers_self (a : FsMap) : fsDiffers a a = false := by
  simp [fsDiffers]

/-- Opening the lazy index does not change the tree it would write. -/
theorem indexMap_openTheIndex (s : CI) : s.openTheIndex.indexMap = s.indexMap := rfl

/-- `indexMap` of an explicit state literal. -/
theorem indexMap_mk (fs di : FsMap) (oi : Option FsMap) (hd : Option FsMap)
    (cm : List (FsMap × List MsgLine)) (st : Option NoteMetadataStorage)
    (ml : List MsgLine) (cf : List FileName) (now : Nat) :
    CI.indexMap ⟨fs, di, oi, hd, cm, st, ml, cf, now⟩ = oi.getD di := rfl

/-- `Commit` in the creating case: a commit with the staged tree and the
pending lines is appended, and the index, store cache, pending lines and
touched list are reset. -/
theorem stepCommit_create (s : CI)
    (hdo : (match s.head with | some h => fsDiffers h s.indexMap | none => true) = true) :
    s.stepCommit =
      ({ s with
          commits := s.commits ++ [(s.indexMap, s.commit_message_lines)]
          head := some s.indexMap
          commit_message_lines := []
          openIndex := none
          storage := none
          changed_files := [] }, none) := by
  rcases hh : s.head with _ | h
  · simp [CI.stepCommit, CI.openTheIndex, CI.indexMap, hh]
  · rw [hh] at hdo
    simp only [CI.indexMap] at hdo
    simp [CI.stepCommit, CI.openTheIndex, CI.indexMap, hh, hdo]

/-- `Commit` in the empty-diff case: nothing changes except that the lazy
index is now materialised (with the tree it already held). -/
theorem stepCommit_noop (s : CI) (h : FsMap) (hh : s.head = some h)
    (hnd : fsDiffers h s.indexMap = false) :
    s.stepCommit = ({ s with openIndex := some s.indexMap }, none) := by
  simp only [CI.indexMap] at hnd
  simp [CI.stepCommit, CI.openTheIndex, CI.indexMap, hh, hnd]

/-- **C1.** `Commit` creates a commit exactly when there is no prior HEAD
or the staged tree differs from the HEAD tree in at least one file; and a
`Commit` immediately after another `Commit` never creates a second
commit. (The hypothesis states the index write-through invariant every
reachable state satisfies: an open index has been persisted to disk.) -/
theorem C1_commit_iff (s : CI)
    (hw : ∀ i, s.openIndex = some i → s.diskIndex = i) :
    (s.stepCommit).2 = none ∧
    ((s.stepCommit).1.commits.length = s.commits.length + 1 ↔
      (s.head = none ∨ ∃ h, s.head = some h ∧ fsDiffers h s.indexMap = true)) ∧
    ((s.stepCommit).1.stepCommit).1.commits.length = (s.stepCommit).1.commits.length := by
  have hdisk : s.indexMap = s.diskIndex := by
    unfold CI.indexMap
    cases hoi : s.openIndex with
    | none => rfl
    | some i => simp [hw i hoi]
  have hnd2 : fsDiffers s.indexMap s.diskIndex = false := by
    rw [← hdisk]
    exact fsDiffers_self _
  rcases hh : s.head with _ | h
  · have h1 := stepCommit_create s (by rw [hh])
    have h2 := stepCommit_noop
      ({ s with
          commits := s.commits ++ [(s.indexMap, s.commit_message_lines)]
          head := some s.indexMap
          commit_message_lines := []
          openIndex := none
          storage := none
          changed_files := [] }) s.indexMap rfl hnd2
    refine ⟨by simp [h1], by simp [h1, hh], by simp [h1, h2]⟩
  · cases hdiff : fsDiffers h s.indexMap with
    | false =>
      have h1 := stepCommit_noop s h hh hdiff
      have h2 := stepCommit_noop ({ s with openIndex := some s.indexMap }) h hh hdiff
      refine ⟨by simp [h1], ?_, by simp [h1, h2]⟩
      rw [h1]
      simp only [hh]
      constructor
      · intro hlen; simp at hlen
      · rintro (hc | ⟨h', hh', hd'⟩)
        · cases hc
        · cases hh'
          rw [hdiff] at hd'
          cases hd'
    | true =>
      have h1 := stepCommit_create s (by rw [hh]; exact hdiff)
      have h2 := stepCommit_noop
        ({ s with
            commits := s.commits ++ [(s.indexMap, s.commit_message_lines)]
            head := some s.indexMap
            commit_message_lines := []
            openIndex := none
            storage := none
            changed_files := [] }) s.indexMap rfl hnd2
      refine ⟨by simp [h1], by simp [h1, hh, hdiff], by simp [h1, h2]⟩

/-- Witness for C1 at the quiescent two-note state: no state-changing
command intervened, so the commit is a no-op. -/
theorem C1_commit_iff_witness :
    (s7.stepCommit).2 = none ∧
    ((s7.stepCommit).1.commits.length = s7.commits.length + 1 ↔
      (s7.head = none ∨ ∃ h, s7.head = some h ∧ fsDiffers h s7.indexMap = true)) ∧
    ((s7.stepCommit).1.stepCommit).1.commits.length = (s7.stepCommit).1.commits.length :=
  C1_commit_iff s7 (by intro i hi; simp [s7, mkState] at hi)

/-- **C10.** A `Commit` that finds no difference against HEAD changes
nothing except materialising the lazily opened index (with the very tree
it already would have written): the pending message lines, the index
tree, the store cache, the touched list, HEAD and the commit log are all
preserved; and whenever a later state with those same pending lines does
create a commit, the created commit's message consists exactly of those
lines. -/
theorem C10_noop_commit_frame (s : CI) (h : FsMap)
    (hh : s.head = some h) (hnd : fsDiffers h s.indexMap = false) :
    s.stepCommit = ({ s with openIndex := some s.indexMap }, none) ∧
    (∀ t : CI, t.commit_message_lines = s.commit_message_lines →
      (t.stepCommit).1.commits.length = t.commits.length + 1 →
      (t.stepCommit).1.commits.getLast? = some (t.indexMap, s.commit_message_lines)) := by
  constructor
  · exact stepCommit_noop s h hh hnd
  · intro t hlines hcreated
    cases hdo : (match t.head with | some ht => fsDiffers ht t.indexMap | none => true) with
    | false =>
      rcases hht : t.head with _ | ht
      · rw [hht] at hdo; cases hdo
      · rw [hht] at hdo
        rw [stepCommit_noop t ht hht hdo] at hcreated
        simp at hcreated
    | true =>
      rw [stepCommit_create t hdo]
      simp [hlines]

/-- Witness for C10 at the quiescent two-note state. -/
theorem C10_noop_commit_frame_witness :
    s7.head = some fs7 ∧ fsDiffers fs7 s7.indexMap = false ∧
    s7.stepCommit = ({ s7 with openIndex := some s7.indexMap }, none) :=
  ⟨by decide, by decide, (C10_noop_commit_frame s7 fs7 (by decide) (by decide)).1⟩

/-- Looking up a file after the scoped checkout fold of `reset`: paths in
the list hold their HEAD version (absence included), all others are
untouched. -/
theorem restore_fold_lookup (h : FsMap) (l : List FileName) (fs : FsMap) (p : FileName) :
    alookup p (l.foldl (fun fs q =>
      match alookup q h with
      | some b => ainsert q b fs
      | none => aremove q fs) fs) = if p ∈ l then alookup p h else alookup p fs := by
  induction l generalizing fs with
  | nil => simp
  | cons q rest ih =>
    simp only [List.foldl_cons]
    rw [ih]
    by_cases hp : p ∈ rest
    · simp [hp]
    · by_cases hpq : p = q
      · subst hpq
        simp only [hp, if_false, List.mem_cons, true_or, if_true]
        cases hb : alookup p h with
        | some b => simp [hb, alookup_ainsert_self]
        | none => simp [hb, alookup_aremove_self]
      · have hmem : (p ∈ q :: rest) = False := by simp [hpq, hp]
        simp only [hp, if_false, hmem, if_false]
        cases hb : alookup q h with
        | some b => simp [hb, alookup_ainsert_ne q p _ _ hpq]
        | none => simp [hb, alookup_aremove_ne q p _ hpq]

/-- **C3, amended.** `rollback` (`reset`) restores exactly the paths
recorded as touched during the open transaction to their HEAD version —
an edited content file or a written metadata file is reverted, a touched
path absent from HEAD is deleted — leaves every unrecorded path alone,
and clears the touched list and the pending message lines. (Per the
counterexample, a removed note's *content* file is not recorded as
touched — only its metadata file is — so its deletion survives the
rollback.) -/
theorem C3_rollback (s : CI) (h : FsMap) (hh : s.head = some h) :
    (s.reset).2 = none ∧
    (s.reset).1.changed_files = [] ∧
    (s.reset).1.commit_message_lines = [] ∧
    (∀ p, p ∈ s.changed_files → alookup p (s.reset).1.fs = alookup p h) ∧
    (∀ p, p ∉ s.changed_files → alookup p (s.reset).1.fs = alookup p s.fs) := by
  have hr : s.reset =
      ({ s with
          fs := s.changed_files.foldl (fun fs q =>
            match alookup q h with
            | some b => ainsert q b fs
            | none => aremove q fs) s.fs
          diskIndex := h
          changed_files := []
          commit_message_lines := [] }, none) := by
    simp [CI.reset, hh]
  refine ⟨by simp [hr], by simp [hr], by simp [hr], ?_, ?_⟩
  · intro p hp
    simp only [hr]
    rw [restore_fold_lookup]
    simp [hp]
  · intro p hp
    simp only [hr]
    rw [restore_fold_lookup]
    simp [hp]

/-- The single-note store of the rollback scenario. -/
def fs3 : FsMap := mkFs [(nA, "a")]

/-- The initial state of the rollback scenario. -/
def s3 : CI := mkState fs3

/-- The failing batch of the rollback scenario: the first removal
succeeds (deleting both files of the note), the second fails to resolve,
aborting the batch. -/
def s3failed : CI :=
  (CI.execute noCollab s3 [Command.removeNote ["2023", "x"], Command.removeNote ["zzz"]]).1

/-- **C3, counterexample.** After a batch that removed a note and then
failed, `reset` does *not* restore every file touched by the executed
commands: the removed note's content file `111111.md` is present in HEAD
but is still missing from the working tree after the rollback, because
`remove_note` records only the metadata path as touched. -/
theorem C3_counterexample :
    (CI.execute noCollab s3
      [Command.removeNote ["2023", "x"], Command.removeNote ["zzz"]]).2 =
      some (CErr.noteNotFound "zzz") ∧
    s3failed.head = some fs3 ∧
    alookup (note_storage_path idA) fs3 = some (Blob.text "a") ∧
    (s3failed.reset).2 = none ∧
    alookup (note_storage_path idA) (s3failed.reset).1.fs = none ∧
    alookup (note_metadata_path idA) (s3failed.reset).1.fs = some (Blob.meta nA) := by
  decide

/-- Witness for the amended C3 at the failed-batch state. -/
theorem C3_rollback_witness :
    s3failed.head = some fs3 ∧
    ((s3failed.reset).2 = none ∧
     (s3failed.reset).1.changed_files = [] ∧
     (s3failed.reset).1.commit_message_lines = [] ∧
     (∀ p, p ∈ s3failed.changed_files →
        alookup p (s3failed.reset).1.fs = alookup p fs3) ∧
     (∀ p, p ∉ s3failed.changed_files →
        alookup p (s3failed.reset).1.fs = alookup p s3failed.fs)) :=
  ⟨by decide, C3_rollback s3failed fs3 (by decide)⟩

/-- A note at the single-segment path `n`. -/
def nN : NoteMetadata :=
  { id := idA, created := 0, last_updated := 0, path := ["n"], tags := [] }

/-- The single-note store of the no-op edit scenario. -/
def fs4 : FsMap := mkFs [(nN, "hello")]

/-- The initial state of the no-op edit scenario. -/
def s4 : CI := mkState fs4

/-- **C4, counterexample.** An `EditNoteSetContent` whose written-back
content equals the current content does leave `last_updated` untouched
(the metadata file is unchanged), but it *does* add a commit-message line:
the "Updated note" line is recorded unconditionally by that command. -/
theorem C4_counterexample :
    (CI.execute noCollab s4 [Command.editNoteSetContent ["n"] false [] "hello"]).2 = none ∧
    (CI.execute noCollab s4 [Command.editNoteSetContent ["n"] false [] "hello"]).1.fs = fs4 ∧
    (CI.execute noCollab s4
      [Command.editNoteSetContent ["n"] false [] "hello"]).1.commit_message_lines =
      [MsgLine.updated "n"] := by
  decide

/-- **C4, amended.** An edit whose written-back content is identical to
the note's current content, with no tag change requested and with the
staged tree agreeing with HEAD after the write-back (in particular when
no earlier command of the batch staged anything), leaves the note's
metadata — `last_updated` included — unchanged on disk and in the cached
store. `EditNoteContent` then also records no commit-message line, but
`EditNoteSetContent` records its "Updated note" line unconditionally. -/
theorem C4_noop_edit (s : CI) (st : NoteMetadataStorage) (id : NoteId) (m : NoteMetadata)
    (h : FsMap) (content : String) (path : VPath) (collab : Collab)
    (hst : s.storage = some st)
    (hid : st.get_id path = some id)
    (hm : alookup id st.id_to_notes = some m)
    (hcontent : alookup (note_storage_path id) s.fs = some (Blob.text content))
    (hh : s.head = some h)
    (hnodiff : fsDiffers h (ainsert (note_storage_path id) (Blob.text content) s.indexMap)
      = false)
    (heditor : collab.editor m.path content = { content := content, added_resources := [] }) :
    ((s.stepEditSet path false [] content).2 = none ∧
     alookup (note_metadata_path id) (s.stepEditSet path false [] content).1.fs =
       alookup (note_metadata_path id) s.fs ∧
     ((s.stepEditSet path false [] content).1.loadStorage).2.get_by_id id = some m ∧
     (s.stepEditSet path false [] content).1.commit_message_lines =
       msgInsert s.commit_message_lines (.updated (VPath.render m.path))) ∧
    ((s.stepEdit collab path none false []).2 = none ∧
     alookup (note_metadata_path id) (s.stepEdit collab path none false []).1.fs =
       alookup (note_metadata_path id) s.fs ∧
     ((s.stepEdit collab path none false []).1.loadStorage).2.get_by_id id = some m ∧
     (s.stepEdit collab path none false []).1.commit_message_lines =
       s.commit_message_lines) := by
  have hfs1 : ainsert (note_storage_path id) (Blob.text content) s.fs = s.fs :=
    ainsert_lookup_self hcontent
  have hst1 : ainsert id m st.id_to_notes = st.id_to_notes := ainsert_lookup_self hm
  simp only [CI.indexMap] at hnodiff
  constructor
  · simp only [CI.stepEditSet, CI.get_note_id, CI.get_note_path, CI.loadStorage, hst, hid,
      hfs1, CI.edited_file, CI.stageAdd, hcontent, CI.change_note_tags, CI.change_note_metadata,
      hm, List.isEmpty_nil, Bool.false_and, if_false, hst1, CI.try_change_last_updated,
      CI.has_git_changes, CI.openTheIndex, CI.indexMap, hh, hnodiff,
      NoteMetadataStorage.get_by_id]
    simp [hm, hst1, hnodiff]
  · simp only [CI.stepEdit, CI.get_note_id, CI.get_note_path, CI.loadStorage, hst, hid,
      hfs1, hm, heditor, CI.edited_file, CI.stageAdd, hcontent, CI.change_note_tags,
      CI.change_note_metadata, List.isEmpty_nil, Bool.false_and, if_false, hst1,
      CI.try_change_last_updated, CI.has_git_changes, CI.openTheIndex, CI.indexMap, hh,
      hnodiff, CI.add_resources_from_editor_output, NoteMetadataStorage.get_by_id]
    simp [hm, hst1, hnodiff]

/-- The no-op edit state with its note store already loaded. -/
def s4l : CI := { s4 with storage := some (NoteMetadataStorage.from_fs fs4) }

/-- Witness for the amended C4 at the single-note store, with content
`hello` written back over itself. -/
theorem C4_noop_edit_witness :
    ((s4l.stepEditSet ["n"] false [] "hello").2 = none ∧
     alookup (note_metadata_path idA) (s4l.stepEditSet ["n"] false [] "hello").1.fs =
       alookup (note_metadata_path idA) s4l.fs ∧
     ((s4l.stepEditSet ["n"] false [] "hello").1.loadStorage).2.get_by_id idA = some nN ∧
     (s4l.stepEditSet ["n"] false [] "hello").1.commit_message_lines =
       msgInsert s4l.commit_message_lines (.updated (VPath.render nN.path))) ∧
    ((s4l.stepEdit noCollab ["n"] none false []).2 = none ∧
     alookup (note_metadata_path idA) (s4l.stepEdit noCollab ["n"] none false []).1.fs =
       alookup (note_metadata_path idA) s4l.fs ∧
     ((s4l.stepEdit noCollab ["n"] none false []).1.loadStorage).2.get_by_id idA = some nN ∧
     (s4l.stepEdit noCollab ["n"] none false []).1.commit_message_lines =
       s4l.commit_message_lines) :=
  C4_noop_edit s4l (NoteMetadataStorage.from_fs fs4) idA nN fs4 "hello" ["n"] noCollab
    (by decide) (by decide) (by decide) (by decide) (by decide) (by decide) rfl

/-! ### File-name disjointness -/

/-- A content file name never equals a metadata file name: the extensions
end in different characters. -/
theorem storage_path_ne_metadata_path (a b : NoteId) :
    note_storage_path a ≠ note_metadata_path b := by
  intro hcontra
  have h' := congrArg (fun s : String => s.toList.getLast?) hcontra
  simp only [note_storage_path, note_metadata_path, NoteId.render] at h'
  have e1 : (String.mk a.chars ++ ".md").toList = a.chars ++ ".md".toList := by
    simp [String.toList]
  have e2 : (String.mk b.chars ++ ".metadata").toList = b.chars ++ ".metadata".toList := by
    simp [String.toList]
  rw [e1, e2] at h'
  rw [List.getLast?_append_of_ne_nil _ (by decide),
      List.getLast?_append_of_ne_nil _ (by decide)] at h'
  exact absurd h' (by decide)

/-- Metadata file names are injective in the id. -/
theorem note_metadata_path_inj {a b : NoteId} (h : note_metadata_path a = note_metadata_path b) :
    a = b := by
  have h' := congrArg String.toList h
  have e1 : (note_metadata_path a).toList = a.chars ++ ".metadata".toList := by
    simp [note_metadata_path, NoteId.render, String.toList]
  have e2 : (note_metadata_path b).toList = b.chars ++ ".metadata".toList := by
    simp [note_metadata_path, NoteId.render, String.toList]
  rw [e1, e2] at h'
  have hab := List.append_cancel_right h'
  cases a; cases b
  simpa using hab

/-- Content file names are injective in the id. -/
theorem note_storage_path_inj {a b : NoteId} (h : note_storage_path a = note_storage_path b) :
    a = b := by
  have h' := congrArg String.toList h
  have e1 : (note_storage_path a).toList = a.chars ++ ".md".toList := by
    simp [note_storage_path, NoteId.render, String.toList]
  have e2 : (note_storage_path b).toList = b.chars ++ ".md".toList := by
    simp [note_storage_path, NoteId.render, String.toList]
  rw [e1, e2] at h'
  have hab := List.append_cancel_right h'
  cases a; cases b
  simpa using hab

/-! ### Characterizations of the interpreter helpers on loaded states -/

/-- `get_note_id` on a state whose store is loaded, successful case. -/
theorem get_note_id_loaded_some (s : CI) (st : NoteMetadataStorage) (p : VPath) (id : NoteId)
    (hst : s.storage = some st) (hid : st.get_id p = some id) :
    s.get_note_id p = (s, .ok id) := by
  simp [CI.get_note_id, CI.loadStorage, hst, hid]

/-- `get_note_id` on a state whose store is loaded, failing case. -/
theorem get_note_id_loaded_none (s : CI) (st : NoteMetadataStorage) (p : VPath)
    (hst : s.storage = some st) (hid : st.get_id p = none) :
    s.get_note_id p = (s, .error (.noteNotFound (VPath.render p))) := by
  simp [CI.get_note_id, CI.loadStorage, hst, hid]

/-- `get_note_path` on a state whose store is loaded. -/
theorem get_note_path_loaded (s : CI) (st : NoteMetadataStorage) (id : NoteId)
    (m : NoteMetadata) (hst : s.storage = some st)
    (hm : alookup id st.id_to_notes = some m) :
    s.get_note_path id = (s, .ok m.path) := by
  simp [CI.get_note_path, CI.loadStorage, NoteMetadataStorage.get_by_id, hst, hm]

/-- `remove_note` on a loaded state with both files present: both files
leave the working tree and the index, a "deleted" line is recorded, and
only the metadata path is recorded as touched. -/
theorem remove_note_eq (s : CI) (st : NoteMetadataStorage) (p : VPath) (id : NoteId)
    (m : NoteMetadata) (bc bm : Blob)
    (hst : s.storage = some st) (hid : st.get_id p = some id)
    (hm : alookup id st.id_to_notes = some m)
    (hcf : alookup (note_storage_path id) s.fs = some bc)
    (hmf : alookup (note_metadata_path id) s.fs = some bm) :
    s.remove_note p =
      ({ s with
          fs := aremove (note_metadata_path id) (aremove (note_storage_path id) s.fs)
          diskIndex :=
            aremove (note_metadata_path id) (aremove (note_storage_path id) s.indexMap)
          openIndex :=
            some (aremove (note_metadata_path id) (aremove (note_storage_path id) s.indexMap))
          commit_message_lines :=
            msgInsert s.commit_message_lines (.deleted (VPath.render m.path))
          changed_files := s.changed_files ++ [note_metadata_path id] }, none) := by
  have hmf2 : alookup (note_metadata_path id) (aremove (note_storage_path id) s.fs) = some bm := by
    rw [alookup_aremove_ne _ _ _ (storage_path_ne_metadata_path id id).symm]
    exact hmf
  simp only [CI.remove_note, get_note_id_loaded_some s st p id hst hid,
    get_note_path_loaded s st id m hst hm, hcf, hmf2, CI.stageRemove, CI.indexMap,
    Option.getD_some]

/-- `change_note_metadata` on a loaded state, when the mutation reports a
change: the record is rewritten in the cache, and the metadata file is
saved, staged and recorded as touched. -/
theorem change_note_metadata_set (s : CI) (st : NoteMetadataStorage) (id : NoteId)
    (m m' : NoteMetadata) (apply : NoteMetadata → NoteMetadata × Bool)
    (hst : s.storage = some st) (hm : alookup id st.id_to_notes = some m)
    (happ : apply m = (m', true)) :
    s.change_note_metadata id apply =
      ({ s with
          storage := some { st with id_to_notes := ainsert id m' st.id_to_notes }
          fs := ainsert (note_metadata_path id) (.meta m') s.fs
          diskIndex := ainsert (note_metadata_path id) (.meta m') s.indexMap
          openIndex := some (ainsert (note_metadata_path id) (.meta m') s.indexMap)
          changed_files := s.changed_files ++ [note_metadata_path id] }, none) := by
  simp only [CI.change_note_metadata, CI.loadStorage, hst, hm, happ, CI.stageAdd,
    alookup_ainsert_self, CI.indexMap, if_true]

/-- The shape of `try_change_last_updated` on a loaded state with a HEAD:
it succeeds, and the result either left everything alone (no staged
difference) or rewrote the note's metadata — same id, path and tags, new
`last_updated` — in the cache, the working tree and the index. -/
theorem try_change_shape (s : CI) (st : NoteMetadataStorage) (id : NoteId) (m : NoteMetadata)
    (h : FsMap) (hst : s.storage = some st) (hm : alookup id st.id_to_notes = some m)
    (hh : s.head = some h) :
    ∃ (mm : NoteMetadata) (r : CI) (b : Bool),
      s.try_change_last_updated id = (r, .ok b) ∧
      mm.id = m.id ∧ mm.path = m.path ∧ mm.tags = m.tags ∧
      (r.fs = s.fs ∨ r.fs = ainsert (note_metadata_path id) (.meta mm) s.fs) ∧
      (r.indexMap = s.indexMap ∨
        r.indexMap = ainsert (note_metadata_path id) (.meta mm) s.indexMap) ∧
      r.storage = some { st with id_to_notes := ainsert id mm st.id_to_notes } ∧
      r.head = s.head ∧
      r.commit_message_lines = s.commit_message_lines := by
  cases hc : fsDiffers h s.indexMap with
  | false =>
    refine ⟨m, s.openTheIndex, false, ?_, rfl, rfl, rfl, Or.inl rfl, Or.inl rfl, ?_, rfl, rfl⟩
    · simp only [CI.indexMap] at hc
      simp [CI.try_change_last_updated, CI.has_git_changes, hh, hc, CI.openTheIndex,
        CI.indexMap]
    · show s.storage = _
      rw [hst, ainsert_lookup_self hm]
  | true =>
    refine ⟨{ m with last_updated := s.now },
      { s with
          storage := some { st with
            id_to_notes := ainsert id { m with last_updated := s.now } st.id_to_notes }
          fs := ainsert (note_metadata_path id) (.meta { m with last_updated := s.now }) s.fs
          diskIndex :=
            ainsert (note_metadata_path id) (.meta { m with last_updated := s.now }) s.indexMap
          openIndex := some
            (ainsert (note_metadata_path id) (.meta { m with last_updated := s.now }) s.indexMap)
          changed_files := s.changed_files ++ [note_metadata_path id] },
      true, ?_, rfl, rfl, rfl, Or.inr rfl, Or.inr rfl, rfl, rfl, rfl⟩
    simp only [CI.indexMap] at hc
    simp [CI.try_change_last_updated, CI.has_git_changes, hh, hc, CI.openTheIndex,
      CI.loadStorage, hst, hm, CI.stageAdd, alookup_ainsert_self, CI.indexMap]

/-- **C2, amended.** Moving a note `A` onto the occupied virtual path of
a note `B` — provided ID interpretation does not claim the destination
token (otherwise the ID-shadowed note is affected instead, see the
counterexample) — fails with the destination-occupied error and leaves
the whole interpreter state untouched when `force` is not set; with
`force`, `B`'s two files leave the working tree and the index, and `A`
keeps its identifier, now recorded at the destination path. -/
theorem C2_move_to_occupied (s : CI) (st : NoteMetadataStorage) (A B : NoteMetadata)
    (source destination : VPath) (h : FsMap) (bc bm : Blob)
    (hst : s.storage = some st)
    (hsrc : st.get_id source = some A.id)
    (hA : alookup A.id st.id_to_notes = some A)
    (htry : st.try_resolve_id destination = none)
    (hBp : alookup destination st.path_to_id = some B.id)
    (hB : alookup B.id st.id_to_notes = some B)
    (hh : s.head = some h)
    (hcf : alookup (note_storage_path B.id) s.fs = some bc)
    (hmf : alookup (note_metadata_path B.id) s.fs = some bm)
    (hAB : A.id ≠ B.id) :
    (s.stepMove source destination false = (s, some (.noteExistsAtDestination destination))) ∧
    ((s.stepMove source destination true).2 = none ∧
     alookup (note_storage_path B.id) (s.stepMove source destination true).1.fs = none ∧
     alookup (note_metadata_path B.id) (s.stepMove source destination true).1.fs = none ∧
     alookup (note_storage_path B.id) (s.stepMove source destination true).1.indexMap = none ∧
     alookup (note_metadata_path B.id) (s.stepMove source destination true).1.indexMap
       = none ∧
     (∃ mm, ((s.stepMove source destination true).1.loadStorage).2.get_by_id A.id = some mm ∧
        mm.id = A.id ∧ mm.path = destination)) := by
  have hgd : st.get_id destination = some B.id := by
    unfold NoteMetadataStorage.get_id
    simp [htry, hBp]
  have hcfmfB : note_storage_path B.id ≠ note_metadata_path B.id :=
    storage_path_ne_metadata_path B.id B.id
  have hcfmfA : note_storage_path B.id ≠ note_metadata_path A.id :=
    storage_path_ne_metadata_path B.id A.id
  have hmfBA : note_metadata_path B.id ≠ note_metadata_path A.id := by
    intro hcontra
    exact hAB (note_metadata_path_inj hcontra).symm
  constructor
  · simp [CI.stepMove, get_note_id_loaded_some s st source A.id hst hsrc,
      get_note_path_loaded s st A.id A hst hA, CI.loadStorage, hst,
      get_note_id_loaded_some s st destination B.id hst hgd, Except.isOk, Except.toBool]
  · have e1 := remove_note_eq s st destination B.id B bc bm hst hgd hB hcf hmf
    have e2 := change_note_metadata_set
      ({ s with
          fs := aremove (note_metadata_path B.id) (aremove (note_storage_path B.id) s.fs)
          diskIndex :=
            aremove (note_metadata_path B.id) (aremove (note_storage_path B.id) s.indexMap)
          openIndex := some
            (aremove (note_metadata_path B.id) (aremove (note_storage_path B.id) s.indexMap))
          storage := some st
          commit_message_lines :=
            msgInsert s.commit_message_lines (.deleted (VPath.render B.path))
          changed_files := s.changed_files ++ [note_metadata_path B.id] })
      st A.id A { A with path := destination }
      (fun m => ({ m with path := destination }, true)) rfl hA rfl
    obtain ⟨mm, r3, b, heq3, hmmid, hmmpath, hmmtags, hfs3, hidx3, hstor3, hhead3, hmsg3⟩ :=
      try_change_shape
        ({ s with
            fs := ainsert (note_metadata_path A.id) (.meta { A with path := destination })
              (aremove (note_metadata_path B.id) (aremove (note_storage_path B.id) s.fs))
            diskIndex := ainsert (note_metadata_path A.id)
              (.meta { A with path := destination })
              (aremove (note_metadata_path B.id) (aremove (note_storage_path B.id) s.indexMap))
            openIndex := some (ainsert (note_metadata_path A.id)
              (.meta { A with path := destination })
              (aremove (note_metadata_path B.id) (aremove (note_storage_path B.id) s.indexMap)))
            storage := some { st with
              id_to_notes := ainsert A.id { A with path := destination } st.id_to_notes }
            commit_message_lines :=
              msgInsert s.commit_message_lines (.deleted (VPath.render B.path))
            changed_files := s.changed_files ++ [note_metadata_path B.id]
              ++ [note_metadata_path A.id] })
        { st with id_to_notes := ainsert A.id { A with path := destination } st.id_to_notes }
        A.id { A with path := destination } h rfl (alookup_ainsert_self _ _ _) hh
    have hstep : s.stepMove source destination true =
        ({ r3 with commit_message_lines := msgInsert r3.commit_message_lines (MsgLine.moved (VPath.render A.path) (VPath.render destination)) }, none) := by
      simp only [CI.stepMove, get_note_id_loaded_some s st source A.id hst hsrc,
        get_note_path_loaded s st A.id A hst hA, CI.loadStorage, hst,
        get_note_id_loaded_some s st destination B.id hst hgd, Except.isOk, Except.toBool,
        if_true, e1, e2, heq3, indexMap_mk, Option.getD_some]
    refine ⟨by rw [hstep], ?_, ?_, ?_, ?_, ?_⟩
    · rw [hstep]
      show alookup _ r3.fs = none
      rcases hfs3 with hf | hf <;>
        simp [hf, alookup_ainsert_ne _ _ _ _ hcfmfA, alookup_aremove_ne _ _ _ hcfmfB,
          alookup_aremove_self]
    · rw [hstep]
      show alookup _ r3.fs = none
      rcases hfs3 with hf | hf <;>
        simp [hf, alookup_ainsert_ne _ _ _ _ hmfBA, alookup_aremove_self]
    · rw [hstep]
      show alookup _ r3.indexMap = none
      rcases hidx3 with hf | hf <;>
        simp [hf, indexMap_mk, alookup_ainsert_ne _ _ _ _ hcfmfA,
          alookup_aremove_ne _ _ _ hcfmfB, alookup_aremove_self]
    · rw [hstep]
      show alookup _ r3.indexMap = none
      rcases hidx3 with hf | hf <;>
        simp [hf, indexMap_mk, alookup_ainsert_ne _ _ _ _ hmfBA, alookup_aremove_self]
    · rw [hstep]
      refine ⟨mm, ?_, by simpa using hmmid, by simpa using hmmpath⟩
      show (CI.loadStorage _).2.get_by_id A.id = some mm
      have hstor' : ({ r3 with commit_message_lines := msgInsert r3.commit_message_lines (MsgLine.moved (VPath.render A.path) (VPath.render destination)) } : CI).storage = r3.storage := rfl
      simp [CI.loadStorage, hstor', hstor3, NoteMetadataStorage.get_by_id,
        alookup_ainsert_self]

/-- A note at the single-segment path `a`. -/
def nA2 : NoteMetadata :=
  { id := idA, created := 0, last_updated := 0, path := ["a"], tags := [] }

/-- The three-note store of the shadowed-move scenario: a note at `a`,
the note `nShadowed` at path `123456`, and `nShadowTarget` whose *id* is
`123456` (at path `c`). -/
def fs2 : FsMap := mkFs [(nA2, "a"), (nShadowed, "b"), (nShadowTarget, "c")]

/-- The initial state of the shadowed-move scenario. -/
def s2 : CI := mkState fs2

/-- **C2, counterexample.** Moving `a` onto the occupied path `123456`
with `force` does *not* remove the occupying note `nShadowed`: because ID
interpretation shadows the path map, the forced removal resolves the
destination token to the note whose *identifier* is `123456`
(`nShadowTarget`, stored at path `c`) and deletes that note instead. Both
of `nShadowed`'s files survive, `nShadowTarget`'s content file is gone. -/
theorem C2_counterexample :
    (CI.execute noCollab s2 [Command.moveNote ["a"] ["123456"] true]).2 = none ∧
    alookup (note_storage_path idB)
      (CI.execute noCollab s2 [Command.moveNote ["a"] ["123456"] true]).1.fs =
      some (Blob.text "b") ∧
    alookup (note_metadata_path idB)
      (CI.execute noCollab s2 [Command.moveNote ["a"] ["123456"] true]).1.fs =
      some (Blob.meta nShadowed) ∧
    alookup (note_storage_path idC)
      (CI.execute noCollab s2 [Command.moveNote ["a"] ["123456"] true]).1.fs = none := by
  decide

/-- A note at the single-segment path `b`. -/
def nB2 : NoteMetadata :=
  { id := idB, created := 0, last_updated := 0, path := ["b"], tags := [] }

/-- The un-shadowed two-note store used to witness the amended C2. -/
def fs2w : FsMap := mkFs [(nA2, "a"), (nB2, "b")]

/-- The witness state for the amended C2, store loaded. -/
def s2w : CI := { mkState fs2w with storage := some (NoteMetadataStorage.from_fs fs2w) }

/-- Witness for the amended C2 at the two-note store. -/
theorem C2_move_to_occupied_witness :
    (s2w.stepMove ["a"] ["b"] false = (s2w, some (.noteExistsAtDestination ["b"]))) ∧
    ((s2w.stepMove ["a"] ["b"] true).2 = none ∧
     alookup (note_storage_path nB2.id) (s2w.stepMove ["a"] ["b"] true).1.fs = none ∧
     alookup (note_metadata_path nB2.id) (s2w.stepMove ["a"] ["b"] true).1.fs = none ∧
     alookup (note_storage_path nB2.id) (s2w.stepMove ["a"] ["b"] true).1.indexMap = none ∧
     alookup (note_metadata_path nB2.id) (s2w.stepMove ["a"] ["b"] true).1.indexMap
       = none ∧
     (∃ mm, ((s2w.stepMove ["a"] ["b"] true).1.loadStorage).2.get_by_id nA2.id = some mm ∧
        mm.id = nA2.id ∧ mm.path = ["b"])) :=
  C2_move_to_occupied s2w (NoteMetadataStorage.from_fs fs2w) nA2 nB2 ["a"] ["b"] fs2w
    (Blob.text "b") (Blob.meta nB2) (by decide) (by decide) (by decide) (by decide)
    (by decide) (by decide) (by decide) (by decide) (by decide) (by decide)

/-! ### The virtual tree: order and well-formedness of the children maps -/

theorem charListLt_irrefl : ∀ l : List Char, charListLt l l = false := by
  intro l
  induction l with
  | nil => rfl
  | cons a as ih => simp [charListLt, ih]

theorem char_toNat_inj {a b : Char} (h : a.toNat = b.toNat) : a = b := by
  apply Char.ext
  apply UInt32.ext
  simpa [Char.toNat, UInt32.toNat] using h

theorem charListLt_trans : ∀ a b c : List Char,
    charListLt a b = true → charListLt b c = true → charListLt a c = true := by
  intro a
  induction a with
  | nil =>
    intro b c hab hbc
    cases b with
    | nil => exact hbc
    | cons y ys =>
      cases c with
      | nil => simp [charListLt] at hbc
      | cons z zs => rfl
  | cons x xs ih =>
    intro b c hab hbc
    cases b with
    | nil => simp [charListLt] at hab
    | cons y ys =>
      cases c with
      | nil => simp [charListLt] at hbc
      | cons z zs =>
        simp only [charListLt] at hab hbc ⊢
        by_cases h1 : x.toNat < y.toNat
        · by_cases h2 : y.toNat < z.toNat
          · rw [if_pos (Nat.lt_trans h1 h2)]
          · rw [if_neg h2] at hbc
            by_cases h3 : y.toNat = z.toNat
            · rw [if_pos (h3 ▸ h1)]
            · rw [if_neg h3] at hbc
              exact absurd hbc (by simp)
        · rw [if_neg h1] at hab
          by_cases h1e : x.toNat = y.toNat
          · rw [if_pos h1e] at hab
            by_cases h2 : y.toNat < z.toNat
            · rw [if_pos (h1e ▸ h2)]
            · rw [if_neg h2] at hbc
              by_cases h3 : y.toNat = z.toNat
              · rw [if_pos h3] at hbc
                have hnl : ¬ x.toNat < z.toNat := by omega
                rw [if_neg hnl, if_pos (h1e.trans h3)]
                exact ih ys zs hab hbc
              · rw [if_neg h3] at hbc
                exact absurd hbc (by simp)
          · rw [if_neg h1e] at hab
            exact absurd hab (by simp)

theorem charListLt_eq_of_not : ∀ a b : List Char,
    charListLt a b = false → charListLt b a = false → a = b := by
  intro a
  induction a with
  | nil =>
    intro b hab _
    cases b with
    | nil => rfl
    | cons y ys => simp [charListLt] at hab
  | cons x xs ih =>
    intro b hab hba
    cases b with
    | nil => simp [charListLt] at hba
    | cons y ys =>
      simp only [charListLt] at hab hba
      by_cases h1 : x.toNat < y.toNat
      · rw [if_pos h1] at hab
        exact absurd hab (by simp)
      · by_cases h2 : y.toNat < x.toNat
        · rw [if_pos h2] at hba
          exact absurd hba (by simp)
        · have he : x.toNat = y.toNat := by omega
          rw [if_neg h1, if_pos he] at hab
          rw [if_neg h2, if_pos he.symm] at hba
          rw [char_toNat_inj he, ih ys hab hba]

theorem strLt_irrefl (a : String) : strLt a a = false := charListLt_irrefl _

theorem strLt_trans {a b c : String} (h1 : strLt a b = true) (h2 : strLt b c = true) :
    strLt a c = true := charListLt_trans _ _ _ h1 h2

theorem strLt_eq_of_not {a b : String} (h1 : strLt a b = false) (h2 : strLt b a = false) :
    a = b := by
  have hl := charListLt_eq_of_not _ _ h1 h2
  cases a with
  | mk da =>
    cases b with
    | mk db =>
      have : da = db := by simpa [String.toList] using hl
      rw [this]

theorem strLt_ne {a b : String} (h : strLt a b = true) : a ≠ b := by
  intro he
  rw [he, strLt_irrefl] at h
  exact absurd h (by simp)

/-- The key list of a children map. -/
def Children.keys : Children → List String
  | .nil => []
  | .cons n _ rest => n :: Children.keys rest

mutual
/-- Well-formedness of a tree node: every children map is strictly
sorted, the invariant `BTreeMap` maintains. -/
inductive TreeWF : NoteFileTree → Prop where
  | note : ∀ m, TreeWF (.note m)
  | tree : ∀ lu cs, ChildrenWF cs → TreeWF (.tree lu cs)

/-- Well-formedness of a children map: each key is strictly below every
later key, and every child is well-formed. -/
inductive ChildrenWF : Children → Prop where
  | nil : ChildrenWF .nil
  | cons : ∀ n c rest, TreeWF c → ChildrenWF rest →
      (∀ k, k ∈ Children.keys rest → strLt n k = true) → ChildrenWF (.cons n c rest)
end

theorem treeWF_children {lu : Option Nat} {cs : Children} (h : TreeWF (.tree lu cs)) :
    ChildrenWF cs := by
  cases h with
  | tree _ _ hcs => exact hcs

theorem childrenWF_head {n : String} {c : NoteFileTree} {rest : Children}
    (h : ChildrenWF (.cons n c rest)) : TreeWF c := by
  cases h with
  | cons _ _ _ hc _ _ => exact hc

theorem childrenWF_rest {n : String} {c : NoteFileTree} {rest : Children}
    (h : ChildrenWF (.cons n c rest)) : ChildrenWF rest := by
  cases h with
  | cons _ _ _ _ hrest _ => exact hrest

theorem childrenWF_bound {n : String} {c : NoteFileTree} {rest : Children}
    (h : ChildrenWF (.cons n c rest)) :
    ∀ k, k ∈ Children.keys rest → strLt n k = true := by
  cases h with
  | cons _ _ _ _ _ hb => exact hb

theorem clookup_cinsert_self (n : String) (t : NoteFileTree) :
    ∀ cs, Children.clookup n (Children.cinsert n t cs) = some t
  | .nil => by simp [Children.cinsert, Children.clookup]
  | .cons n' c rest => by
    by_cases h : n = n'
    · simp [Children.cinsert, h, Children.clookup]
    · by_cases h2 : strLt n n' = true
      · simp [Children.cinsert, h, h2, Children.clookup]
      · simp [Children.cinsert, h, h2, Children.clookup,
          clookup_cinsert_self n t rest]

theorem clookup_cinsert_ne (n n' : String) (t : NoteFileTree) (hne : n' ≠ n) :
    ∀ cs, Children.clookup n' (Children.cinsert n t cs) = Children.clookup n' cs
  | .nil => by simp [Children.cinsert, Children.clookup, hne]
  | .cons m c rest => by
    by_cases h : n = m
    · subst h
      simp [Children.cinsert, Children.clookup, hne]
    · by_cases h2 : strLt n m = true
      · simp [Children.cinsert, h, h2, Children.clookup, hne]
      · by_cases h3 : n' = m
        · simp [Children.cinsert, h, h2, Children.clookup, h3]
        · simp [Children.cinsert, h, h2, Children.clookup, h3,
            clookup_cinsert_ne n n' t hne rest]

theorem keys_cinsert_mem (n : String) (t : NoteFileTree) :
    ∀ cs k, k ∈ Children.keys (Children.cinsert n t cs) ↔
      k = n ∨ k ∈ Children.keys cs
  | .nil, k => by simp [Children.cinsert, Children.keys]
  | .cons m c rest, k => by
    by_cases h : n = m
    · subst h
      simp [Children.cinsert, Children.keys]
    · by_cases h2 : strLt n m = true
      · simp [Children.cinsert, h, h2, Children.keys]
      · simp [Children.cinsert, h, h2, Children.keys,
          keys_cinsert_mem n t rest k]
        tauto

theorem clookup_mem_keys : ∀ cs (k : String) (c : NoteFileTree),
    Children.clookup k cs = some c → k ∈ Children.keys cs
  | .nil, k, c, h => by simp [Children.clookup] at h
  | .cons n c' rest, k, c, h => by
    by_cases he : k = n
    · simp [Children.keys, he]
    · simp only [Children.clookup, if_neg he] at h
      simp [Children.keys, clookup_mem_keys rest k c h]

theorem clookup_none_of_not_mem {cs : Children} {k : String}
    (h : k ∉ Children.keys cs) : Children.clookup k cs = none := by
  cases hcl : Children.clookup k cs with
  | none => rfl
  | some c => exact absurd (clookup_mem_keys cs k c hcl) h

theorem bound_not_mem {name : String} {rest : Children}
    (hb : ∀ k, k ∈ Children.keys rest → strLt name k = true) :
    name ∉ Children.keys rest := by
  intro hmem
  have := hb name hmem
  rw [strLt_irrefl] at this
  exact absurd this (by simp)

theorem clookup_wf : ∀ cs, ChildrenWF cs → ∀ (n : String) (c : NoteFileTree),
    Children.clookup n cs = some c → TreeWF c
  | .nil, _, n, c, h => by simp [Children.clookup] at h
  | .cons n' c' rest, hwf, n, c, h => by
    by_cases he : n = n'
    · simp only [Children.clookup, if_pos he] at h
      cases h
      exact childrenWF_head hwf
    · simp only [Children.clookup, if_neg he] at h
      exact clookup_wf rest (childrenWF_rest hwf) n c h

theorem cinsert_wf (n : String) (t : NoteFileTree) (ht : TreeWF t) :
    ∀ cs, ChildrenWF cs → ChildrenWF (Children.cinsert n t cs)
  | .nil, _ => by
    simp only [Children.cinsert]
    exact .cons n t .nil ht .nil (by intro k hk; simp [Children.keys] at hk)
  | .cons n' c rest, hwf => by
    have hc := childrenWF_head hwf
    have hrest := childrenWF_rest hwf
    have hb := childrenWF_bound hwf
    by_cases he : n = n'
    · simp only [Children.cinsert, if_pos he]
      exact .cons n t rest ht hrest (he ▸ hb)
    · simp only [Children.cinsert, if_neg he]
      by_cases hlt : strLt n n' = true
      · rw [if_pos hlt]
        refine .cons n t (.cons n' c rest) ht (.cons n' c rest hc hrest hb) ?_
        intro k hk
        simp only [Children.keys, List.mem_cons] at hk
        cases hk with
        | inl h => exact h ▸ hlt
        | inr h => exact strLt_trans hlt (hb k h)
      · rw [if_neg hlt]
        refine .cons n' c (Children.cinsert n t rest) hc
          (cinsert_wf n t ht rest hrest) ?_
        intro k hk
        rw [keys_cinsert_mem] at hk
        cases hk with
        | inl h =>
          subst h
          cases hlt2 : strLt n' k with
          | true => rfl
          | false =>
            have hlt' : strLt k n' = false := by
              cases h3 : strLt k n' with
              | false => rfl
              | true => exact absurd h3 hlt
            exact absurd (strLt_eq_of_not hlt' hlt2) he
        | inr h => exact hb k h

theorem insertParts_cons_found (nm : NoteMetadata) (p : String) (ps : List String)
    (lu : Option Nat) (cs : Children) (c : NoteFileTree)
    (hcl : Children.clookup p cs = some c) :
    NoteFileTree.insertParts nm (p :: ps) (.tree lu cs) =
      match NoteFileTree.insertParts nm ps c with
      | some e' => some (.tree (match lu with
          | some d => some (max d nm.last_updated)
          | none => some nm.last_updated) (Children.cinsert p e' cs))
      | none => none := by
  simp only [NoteFileTree.insertParts, hcl]

theorem insertParts_cons_none (nm : NoteMetadata) (p : String) (ps : List String)
    (lu : Option Nat) (cs : Children)
    (hcl : Children.clookup p cs = none) :
    NoteFileTree.insertParts nm (p :: ps) (.tree lu cs) =
      match NoteFileTree.insertParts nm ps
          (if ps.isEmpty then .note nm else .tree (some nm.last_updated) .nil) with
      | some e' => some (.tree (match lu with
          | some d => some (max d nm.last_updated)
          | none => some nm.last_updated) (Children.cinsert p e' cs))
      | none => none := by
  simp only [NoteFileTree.insertParts, hcl]

theorem insertParts_wf (nm : NoteMetadata) :
    ∀ (ps : List String) (t t' : NoteFileTree),
      NoteFileTree.insertParts nm ps t = some t' → TreeWF t → TreeWF t'
  | [], t, t', h, hwf => by
    simp only [NoteFileTree.insertParts, Option.some.injEq] at h
    exact h ▸ hwf
  | _ :: _, .note _, t', h, _ => by simp [NoteFileTree.insertParts] at h
  | p :: ps, .tree lu cs, t', h, hwf => by
    have hcs := treeWF_children hwf
    cases hcl : Children.clookup p cs with
    | some c =>
      rw [insertParts_cons_found nm p ps lu cs c hcl] at h
      cases hent : NoteFileTree.insertParts nm ps c with
      | none => rw [hent] at h; exact absurd h (by simp)
      | some e' =>
        rw [hent] at h
        simp only [Option.some.injEq] at h
        have he' : TreeWF e' :=
          insertParts_wf nm ps c e' hent (clookup_wf cs hcs p c hcl)
        exact h ▸ .tree _ _ (cinsert_wf p e' he' cs hcs)
    | none =>
      rw [insertParts_cons_none nm p ps lu cs hcl] at h
      cases hent : NoteFileTree.insertParts nm ps
          (if ps.isEmpty then NoteFileTree.note nm
           else NoteFileTree.tree (some nm.last_updated) .nil) with
      | none => rw [hent] at h; exact absurd h (by simp)
      | some e' =>
        rw [hent] at h
        simp only [Option.some.injEq] at h
        have hentwf : TreeWF (if ps.isEmpty then NoteFileTree.note nm
            else NoteFileTree.tree (some nm.last_updated) .nil) := by
          split
          · exact .note _
          · exact .tree _ _ .nil
        have he' : TreeWF e' := insertParts_wf nm ps _ e' hent hentwf
        exact h ▸ .tree _ _ (cinsert_wf p e' he' cs hcs)

theorem from_iter_aux_wf : ∀ (notes : List NoteMetadata) (t : NoteFileTree),
    TreeWF t → ∀ t', NoteFileTree.from_iter_aux t notes = some t' → TreeWF t'
  | [], t, hwf, t', h => by
    simp only [NoteFileTree.from_iter_aux, Option.some.injEq] at h
    exact h ▸ hwf
  | n :: rest, t, hwf, t', h => by
    simp only [NoteFileTree.from_iter_aux] at h
    cases hins : NoteFileTree.insertParts n n.path t with
    | none => rw [hins] at h; exact absurd h (by simp)
    | some t1 =>
      rw [hins] at h
      exact from_iter_aux_wf rest t1 (insertParts_wf _ _ _ _ hins hwf) t' h

theorem from_iter_wf (notes : List NoteMetadata) (t : NoteFileTree)
    (h : NoteFileTree.from_iter notes = some t) : TreeWF t :=
  from_iter_aux_wf notes NoteFileTree.new (.tree _ _ .nil) t h

theorem entryAt_wf : ∀ (q : VPath) (t t' : NoteFileTree),
    TreeWF t → NoteFileTree.entryAt t q = some t' → TreeWF t'
  | [], t, t', hwf, h => by
    simp only [NoteFileTree.entryAt, Option.some.injEq] at h
    exact h ▸ hwf
  | _ :: _, .note _, t', _, h => by simp [NoteFileTree.entryAt] at h
  | p :: ps, .tree lu cs, t', hwf, h => by
    simp only [NoteFileTree.entryAt] at h
    cases hcl : Children.clookup p cs with
    | none => rw [hcl] at h; exact absurd h (by simp)
    | some c =>
      rw [hcl] at h
      exact entryAt_wf ps c t' (clookup_wf cs (treeWF_children hwf) p c hcl) h

/-! ### Unfolding lemmas for the tree accessors -/

theorem entryAt_nil (t : NoteFileTree) : t.entryAt [] = some t := by
  cases t <;> rfl

theorem entryAt_cons (lu : Option Nat) (cs : Children) (x : String) (rel : VPath) :
    (NoteFileTree.tree lu cs).entryAt (x :: rel) =
      match Children.clookup x cs with
      | some c => c.entryAt rel
      | none => none := rfl

theorem isNoteAt_nil_note (m : NoteMetadata) :
    (NoteFileTree.note m).isNoteAt [] = some m := rfl

theorem isNoteAt_nil_tree (lu : Option Nat) (cs : Children) :
    (NoteFileTree.tree lu cs).isNoteAt [] = none := rfl

theorem isNoteAt_cons_note (m : NoteMetadata) (x : String) (rel : VPath) :
    (NoteFileTree.note m).isNoteAt (x :: rel) = none := rfl

theorem isNoteAt_cons (lu : Option Nat) (cs : Children) (x : String) (rel : VPath) :
    (NoteFileTree.tree lu cs).isNoteAt (x :: rel) =
      match Children.clookup x cs with
      | some c => c.isNoteAt rel
      | none => none := by
  cases hcl : Children.clookup x cs <;>
    simp [NoteFileTree.isNoteAt, NoteFileTree.entryAt, hcl]

theorem isNoteAt_lu (lu lu' : Option Nat) (cs : Children) (rel : VPath) :
    (NoteFileTree.tree lu cs).isNoteAt rel = (NoteFileTree.tree lu' cs).isNoteAt rel := by
  cases rel with
  | nil => rfl
  | cons x r => rw [isNoteAt_cons, isNoteAt_cons]

theorem listIsPre_nil_right {α : Type} [DecidableEq α] (r : List α) :
    listIsPre r [] = true ↔ r = [] := by
  cases r <;> simp [listIsPre]

/-! ### The effect of one insertion on the tree's entries -/

/-- What `insertParts` does: it never disturbs the note stored at any
other exact path, it installs the new note at the target path whenever
that entry did not exist, it leaves the target entry's note unchanged
when the entry did exist (`or_insert` keeps it), and the entries that
exist afterwards are the old ones plus the nonempty prefixes of the
inserted path. -/
theorem insertParts_effect (nm : NoteMetadata) :
    ∀ (ps : List String) (t t' : NoteFileTree),
      NoteFileTree.insertParts nm ps t = some t' →
      (∀ q, q ≠ ps → t'.isNoteAt q = t.isNoteAt q) ∧
      (t.entryAt ps = none → t'.isNoteAt ps = some nm) ∧
      (t.entryAt ps ≠ none → t'.isNoteAt ps = t.isNoteAt ps) ∧
      (∀ q, (t'.entryAt q).isSome = true ↔
        (t.entryAt q).isSome = true ∨ (q ≠ [] ∧ listIsPre q ps = true))
  | [], t, t', h => by
    simp only [NoteFileTree.insertParts, Option.some.injEq] at h
    subst h
    refine ⟨fun q _ => rfl, ?_, fun _ => rfl, ?_⟩
    · rw [entryAt_nil]
      intro hc
      exact absurd hc (by simp)
    · intro q
      constructor
      · intro h1
        exact Or.inl h1
      · intro h1
        cases h1 with
        | inl h1 => exact h1
        | inr h1 =>
          obtain ⟨hq, hpre⟩ := h1
          rw [(listIsPre_nil_right q).mp hpre] at hq
          exact absurd rfl hq
  | _ :: _, .note _, t', h => by simp [NoteFileTree.insertParts] at h
  | p :: ps, .tree lu cs, t', h => by
    cases hcl : Children.clookup p cs with
    | some c =>
      rw [insertParts_cons_found nm p ps lu cs c hcl] at h
      cases hent : NoteFileTree.insertParts nm ps c with
      | none => rw [hent] at h; exact absurd h (by simp)
      | some e' =>
        rw [hent] at h
        simp only [Option.some.injEq] at h
        obtain ⟨ih1, ih2, ih3, ih4⟩ := insertParts_effect nm ps c e' hent
        subst h
        refine ⟨?_, ?_, ?_, ?_⟩
        · intro q hq
          cases q with
          | nil => rw [isNoteAt_nil_tree, isNoteAt_nil_tree]
          | cons x r =>
            by_cases hxp : x = p
            · subst hxp
              simp only [isNoteAt_cons, clookup_cinsert_self, hcl]
              exact ih1 r (fun he => hq (by rw [he]))
            · simp only [isNoteAt_cons, clookup_cinsert_ne p x e' hxp]
        · simp only [entryAt_cons, hcl]
          intro hnone
          simp only [isNoteAt_cons, clookup_cinsert_self, hcl]
          exact ih2 hnone
        · simp only [entryAt_cons, hcl]
          intro hne
          simp only [isNoteAt_cons, clookup_cinsert_self, hcl]
          exact ih3 hne
        · intro q
          cases q with
          | nil => simp [entryAt_nil]
          | cons x r =>
            by_cases hxp : x = p
            · subst hxp
              simp only [entryAt_cons, clookup_cinsert_self, hcl]
              by_cases hr : r = []
              · subst hr
                simp [entryAt_nil, listIsPre]
              · rw [ih4 r]
                simp [listIsPre, hr]
            · simp only [entryAt_cons, clookup_cinsert_ne p x e' hxp]
              have hnp : listIsPre (x :: r) (p :: ps) = false := by
                simp [listIsPre, hxp]
              simp [hnp]
    | none =>
      rw [insertParts_cons_none nm p ps lu cs hcl] at h
      cases ps with
      | nil =>
        simp only [NoteFileTree.insertParts, List.isEmpty_nil, if_true,
          Option.some.injEq] at h
        subst h
        refine ⟨?_, ?_, ?_, ?_⟩
        · intro q hq
          cases q with
          | nil => rw [isNoteAt_nil_tree, isNoteAt_nil_tree]
          | cons x r =>
            by_cases hxp : x = p
            · subst hxp
              have hr : r ≠ [] := fun he => hq (by rw [he])
              cases r with
              | nil => exact absurd rfl hr
              | cons y r' =>
                simp only [isNoteAt_cons, clookup_cinsert_self, hcl,
                  isNoteAt_cons_note]
            · simp only [isNoteAt_cons, clookup_cinsert_ne p x _ hxp]
        · intro _
          simp only [isNoteAt_cons, clookup_cinsert_self, isNoteAt_nil_note]
        · intro hne
          exact absurd (by simp [entryAt_cons, hcl]) hne
        · intro q
          cases q with
          | nil => simp [entryAt_nil]
          | cons x r =>
            by_cases hxp : x = p
            · subst hxp
              simp only [entryAt_cons, clookup_cinsert_self, hcl]
              cases r with
              | nil => simp [entryAt_nil, listIsPre]
              | cons y r' =>
                simp [NoteFileTree.entryAt, listIsPre, listIsPre_nil_right]
            · simp only [entryAt_cons, clookup_cinsert_ne p x _ hxp]
              have hnp : listIsPre (x :: r) [p] = false := by
                simp [listIsPre, hxp]
              simp [hnp]
      | cons p' ps' =>
        simp only [List.isEmpty_cons, Bool.false_eq_true, if_false] at h
        cases hent : NoteFileTree.insertParts nm (p' :: ps')
            (.tree (some nm.last_updated) .nil) with
        | none => rw [hent] at h; exact absurd h (by simp)
        | some e' =>
          rw [hent] at h
          simp only [Option.some.injEq] at h
          obtain ⟨ih1, ih2, ih3, ih4⟩ :=
            insertParts_effect nm (p' :: ps') _ e' hent
          subst h
          have hf3 : NoteFileTree.entryAt
              (.tree (some nm.last_updated) Children.nil) (p' :: ps') = none := by
            simp [entryAt_cons, Children.clookup]
          refine ⟨?_, ?_, ?_, ?_⟩
          · intro q hq
            cases q with
            | nil => rw [isNoteAt_nil_tree, isNoteAt_nil_tree]
            | cons x r =>
              by_cases hxp : x = p
              · subst hxp
                have hr : r ≠ p' :: ps' := fun he => hq (by rw [he])
                simp only [isNoteAt_cons, clookup_cinsert_self, hcl]
                rw [ih1 r hr]
                cases r with
                | nil => rw [isNoteAt_nil_tree]
                | cons y r' => simp [isNoteAt_cons, Children.clookup]
              · simp only [isNoteAt_cons, clookup_cinsert_ne p x e' hxp]
          · intro _
            simp only [isNoteAt_cons, clookup_cinsert_self]
            exact ih2 hf3
          · intro hne
            exact absurd (by simp [entryAt_cons, hcl]) hne
          · intro q
            cases q with
            | nil => simp [entryAt_nil]
            | cons x r =>
              by_cases hxp : x = p
              · subst hxp
                simp only [entryAt_cons, clookup_cinsert_self, hcl]
                rw [ih4 r]
                cases r with
                | nil => simp [entryAt_nil, listIsPre]
                | cons y r' =>
                  have hen : NoteFileTree.entryAt
                      (.tree (some nm.last_updated) Children.nil) (y :: r') = none := by
                    simp [entryAt_cons, Children.clookup]
                  simp [hen, listIsPre]
              · simp only [entryAt_cons, clookup_cinsert_ne p x e' hxp]
                have hnp : listIsPre (x :: r) (p :: p' :: ps') = false := by
                  simp [listIsPre, hxp]
                simp [hnp]

/-- Inserting below a fresh interior node always succeeds. -/
theorem insertParts_fresh (nm : NoteMetadata) :
    ∀ (ps : List String) (lu : Option Nat),
      NoteFileTree.insertParts nm ps (.tree lu .nil) ≠ none
  | [], lu => by simp [NoteFileTree.insertParts]
  | p :: ps, lu => by
    rw [insertParts_cons_none nm p ps lu .nil rfl]
    cases ps with
    | nil => simp [NoteFileTree.insertParts]
    | cons p' ps' =>
      simp only [List.isEmpty_cons, Bool.false_eq_true, if_false]
      cases hent : NoteFileTree.insertParts nm (p' :: ps')
          (.tree (some nm.last_updated) .nil) with
      | none => exact absurd hent (insertParts_fresh nm (p' :: ps') _)
      | some e' => simp [hent]

/-- An insertion fails exactly when some proper nonempty prefix of the
inserted path is already occupied by a leaf. -/
theorem insertParts_none_iff (nm : NoteMetadata) :
    ∀ (ps : List String) (t : NoteFileTree),
      NoteFileTree.insertParts nm ps t = none ↔
        ∃ q r, ps = q ++ r ∧ r ≠ [] ∧ (∃ m, t.isNoteAt q = some m)
  | [], t => by
    constructor
    · intro h
      simp [NoteFileTree.insertParts] at h
    · rintro ⟨q, r, hqr, hr, _⟩
      exact absurd (List.append_eq_nil.mp hqr.symm).2 hr
  | p :: ps, .note m => by
    constructor
    · intro _
      exact ⟨[], p :: ps, rfl, by simp, m, isNoteAt_nil_note m⟩
    · intro _
      simp [NoteFileTree.insertParts]
  | p :: ps, .tree lu cs => by
    cases hcl : Children.clookup p cs with
    | some c =>
      rw [insertParts_cons_found nm p ps lu cs c hcl]
      have ih := insertParts_none_iff nm ps c
      constructor
      · intro h
        cases hent : NoteFileTree.insertParts nm ps c with
        | some e' => rw [hent] at h; simp at h
        | none =>
          obtain ⟨q, r, hqr, hr, m, hm⟩ := ih.mp hent
          refine ⟨p :: q, r, by rw [hqr, List.cons_append], hr, m, ?_⟩
          simp only [isNoteAt_cons, hcl]
          exact hm
      · rintro ⟨q, r, hqr, hr, m, hm⟩
        cases q with
        | nil =>
          rw [isNoteAt_nil_tree] at hm
          exact absurd hm (by simp)
        | cons x q' =>
          simp only [List.cons_append, List.cons.injEq] at hqr
          obtain ⟨hx, hps⟩ := hqr
          subst hx
          simp only [isNoteAt_cons, hcl] at hm
          rw [ih.mpr ⟨q', r, hps, hr, m, hm⟩]
    | none =>
      rw [insertParts_cons_none nm p ps lu cs hcl]
      constructor
      · intro h
        exfalso
        cases ps with
        | nil => simp [NoteFileTree.insertParts] at h
        | cons p' ps' =>
          simp only [List.isEmpty_cons, Bool.false_eq_true, if_false] at h
          cases hent : NoteFileTree.insertParts nm (p' :: ps')
              (.tree (some nm.last_updated) .nil) with
          | none => exact absurd hent (insertParts_fresh nm (p' :: ps') _)
          | some e' => rw [hent] at h; simp at h
      · rintro ⟨q, r, hqr, hr, m, hm⟩
        exfalso
        cases q with
        | nil =>
          rw [isNoteAt_nil_tree] at hm
          exact absurd hm (by simp)
        | cons x q' =>
          simp only [List.cons_append, List.cons.injEq] at hqr
          obtain ⟨hx, _⟩ := hqr
          subst hx
          simp only [isNoteAt_cons, hcl] at hm
          exact absurd hm (by simp)

theorem from_iter_aux_append (l1 l2 : List NoteMetadata) (t : NoteFileTree) :
    NoteFileTree.from_iter_aux t (l1 ++ l2) =
      match NoteFileTree.from_iter_aux t l1 with
      | some t' => NoteFileTree.from_iter_aux t' l2
      | none => none := by
  induction l1 generalizing t with
  | nil => simp [NoteFileTree.from_iter_aux]
  | cons n rest ih =>
    simp only [List.cons_append, NoteFileTree.from_iter_aux]
    cases hins : NoteFileTree.insertParts n n.path t with
    | none => rfl
    | some t1 => simp [hins, ih]

/-! ### Which notes claim a leaf, and when the construction fails -/

/-- Placeholder record, used only as the `List.getD` default. -/
def dnote : NoteMetadata :=
  { id := ⟨[]⟩, created := 0, last_updated := 0, path := [], tags := [] }

/-- The `i`-th note of the iteration order. -/
def noteAt (notes : List NoteMetadata) (i : Nat) : NoteMetadata :=
  notes.getD i dnote

/-- Note `i`'s insertion finds no entry at its own path, so it installs
itself as the leaf there: its path is nonempty and is not a (weak) prefix
of any earlier note's path. -/
def claimedAsLeaf (notes : List NoteMetadata) (i : Nat) : Prop :=
  i < notes.length ∧ (noteAt notes i).path ≠ [] ∧
  ∀ k, k < i → listIsPre (noteAt notes i).path (noteAt notes k).path = false

/-- Some note's path passes strictly through an earlier claimed leaf. -/
def fromIterFails (notes : List NoteMetadata) : Prop :=
  ∃ i j, i < j ∧ j < notes.length ∧ claimedAsLeaf notes i ∧
    properPre (noteAt notes i).path (noteAt notes j).path = true

theorem noteAt_append_lt (notes : List NoteMetadata) (n : NoteMetadata) (i : Nat)
    (h : i < notes.length) : noteAt (notes ++ [n]) i = noteAt notes i := by
  simp [noteAt, List.getD_eq_getElem?_getD, List.getElem?_append_left h]

theorem noteAt_append_self (notes : List NoteMetadata) (n : NoteMetadata) :
    noteAt (notes ++ [n]) notes.length = n := by
  simp [noteAt, List.getD_eq_getElem?_getD,
    List.getElem?_append_right (Nat.le_refl notes.length)]

theorem claimedAsLeaf_append (notes : List NoteMetadata) (n : NoteMetadata) (i : Nat)
    (h : i < notes.length) :
    claimedAsLeaf (notes ++ [n]) i ↔ claimedAsLeaf notes i := by
  unfold claimedAsLeaf
  rw [noteAt_append_lt _ _ _ h]
  constructor
  · rintro ⟨_, h2, h3⟩
    refine ⟨h, h2, fun k hk => ?_⟩
    have := h3 k hk
    rwa [noteAt_append_lt _ _ _ (Nat.lt_trans hk h)] at this
  · rintro ⟨_, h2, h3⟩
    refine ⟨by simp; omega, h2, fun k hk => ?_⟩
    rw [noteAt_append_lt _ _ _ (Nat.lt_trans hk h)]
    exact h3 k hk

theorem claimedAsLeaf_last (notes : List NoteMetadata) (n : NoteMetadata) :
    claimedAsLeaf (notes ++ [n]) notes.length ↔
      (n.path ≠ [] ∧ ∀ k, k < notes.length →
        listIsPre n.path (noteAt notes k).path = false) := by
  unfold claimedAsLeaf
  rw [noteAt_append_self]
  constructor
  · rintro ⟨_, h2, h3⟩
    refine ⟨h2, fun k hk => ?_⟩
    have := h3 k hk
    rwa [noteAt_append_lt _ _ _ hk] at this
  · rintro ⟨h2, h3⟩
    refine ⟨by simp, h2, fun k hk => ?_⟩
    rw [noteAt_append_lt _ _ _ hk]
    exact h3 k hk

theorem properPre_iff_append {α : Type} [DecidableEq α] (p q : List α) :
    properPre p q = true ↔ ∃ r, r ≠ [] ∧ q = p ++ r := by
  simp only [properPre, Bool.and_eq_true, decide_eq_true_eq, listIsPre_iff_append]
  constructor
  · rintro ⟨⟨r, rfl⟩, hlen⟩
    refine ⟨r, ?_, rfl⟩
    intro hre
    subst hre
    simp at hlen
  · rintro ⟨r, hr, rfl⟩
    refine ⟨⟨r, rfl⟩, ?_⟩
    cases r with
    | nil => exact absurd rfl hr
    | cons a as => simp

theorem isNoteAt_some_entry {t : NoteFileTree} {q : VPath} {m : NoteMetadata}
    (h : t.isNoteAt q = some m) : (t.entryAt q).isSome = true := by
  unfold NoteFileTree.isNoteAt at h
  cases he : t.entryAt q with
  | none => rw [he] at h; simp at h
  | some e => simp [he]

/-- Full characterization of `from_iter`: it fails exactly when some
note's path passes strictly through an earlier claimed leaf, and on
success the leaves are exactly the claimed paths, each holding the first
note that claimed it, while the interior entries are the root and the
nonempty prefixes of note paths. -/
theorem from_iter_spec : ∀ (notes : List NoteMetadata),
    (NoteFileTree.from_iter notes = none ↔ fromIterFails notes) ∧
    (∀ t, NoteFileTree.from_iter notes = some t →
      (∀ q m, t.isNoteAt q = some m ↔
        ∃ i, i < notes.length ∧ (noteAt notes i).path = q ∧
          claimedAsLeaf notes i ∧ m = noteAt notes i) ∧
      (∀ q, (t.entryAt q).isSome = true ↔
        q = [] ∨ ∃ i, i < notes.length ∧ q ≠ [] ∧
          listIsPre q (noteAt notes i).path = true)) := by
  intro notes
  induction notes using List.reverseRecOn with
  | nil =>
    constructor
    · constructor
      · intro h
        simp [NoteFileTree.from_iter, NoteFileTree.from_iter_aux] at h
      · rintro ⟨i, j, hij, hj, _, _⟩
        simp at hj
    · intro t ht
      have ht' : t = NoteFileTree.tree none .nil := by
        simp [NoteFileTree.from_iter, NoteFileTree.from_iter_aux,
          NoteFileTree.new] at ht
        exact ht.symm
      subst ht'
      constructor
      · intro q m
        constructor
        · intro h
          cases q with
          | nil => rw [isNoteAt_nil_tree] at h; exact absurd h (by simp)
          | cons x r => simp [isNoteAt_cons, Children.clookup] at h
        · rintro ⟨i, hi, _⟩
          simp at hi
      · intro q
        constructor
        · intro h
          cases q with
          | nil => exact Or.inl rfl
          | cons x r => simp [entryAt_cons, Children.clookup] at h
        · intro h
          cases h with
          | inl h => subst h; simp [entryAt_nil]
          | inr h =>
            obtain ⟨i, hi, _⟩ := h
            simp at hi
  | append_singleton notes n ih =>
    obtain ⟨ihS1, ihS2S3⟩ := ih
    have hsnoc : NoteFileTree.from_iter (notes ++ [n]) =
        match NoteFileTree.from_iter notes with
        | some t => NoteFileTree.insertParts n n.path t
        | none => none := by
      unfold NoteFileTree.from_iter
      rw [from_iter_aux_append]
      cases hfa : NoteFileTree.from_iter_aux NoteFileTree.new notes with
      | none => rfl
      | some t2 =>
        cases hins2 : NoteFileTree.insertParts n n.path t2 <;>
          simp [NoteFileTree.from_iter_aux, hins2]
    have hlen : (notes ++ [n]).length = notes.length + 1 := by simp
    cases hft : NoteFileTree.from_iter notes with
    | none =>
      have hfails : fromIterFails notes := ihS1.mp hft
      have hfails' : fromIterFails (notes ++ [n]) := by
        obtain ⟨i, j, hij, hjl, hcl, hpp⟩ := hfails
        refine ⟨i, j, hij, by rw [hlen]; omega, ?_, ?_⟩
        · exact (claimedAsLeaf_append notes n i (Nat.lt_trans hij hjl)).mpr hcl
        · rw [noteAt_append_lt _ _ _ (Nat.lt_trans hij hjl),
            noteAt_append_lt _ _ _ hjl]
          exact hpp
      constructor
      · rw [hsnoc, hft]
        exact ⟨fun _ => hfails', fun _ => rfl⟩
      · intro t'' ht''
        rw [hsnoc, hft] at ht''
        exact absurd ht'' (by simp)
    | some t =>
      obtain ⟨hS2, hS3⟩ := ihS2S3 t hft
      have hnofail : ¬ fromIterFails notes := by
        intro hf
        rw [ihS1.mpr hf] at hft
        exact absurd hft (by simp)
      have heq : NoteFileTree.from_iter (notes ++ [n]) =
          NoteFileTree.insertParts n n.path t := by
        rw [hsnoc, hft]
      cases hins : NoteFileTree.insertParts n n.path t with
      | none =>
        obtain ⟨q, r, hqr, hr, m, hm⟩ := (insertParts_none_iff n n.path t).mp hins
        obtain ⟨i, hi, hpath, hclm, hmval⟩ := (hS2 q m).mp hm
        have hfails' : fromIterFails (notes ++ [n]) := by
          refine ⟨i, notes.length, hi, by rw [hlen]; omega, ?_, ?_⟩
          · exact (claimedAsLeaf_append notes n i hi).mpr hclm
          · rw [noteAt_append_lt _ _ _ hi, noteAt_append_self, hpath]
            exact (properPre_iff_append q n.path).mpr ⟨r, hr, hqr⟩
        constructor
        · rw [heq, hins]
          exact ⟨fun _ => hfails', fun _ => rfl⟩
        · intro t'' ht''
          rw [heq, hins] at ht''
          exact absurd ht'' (by simp)
      | some t' =>
        obtain ⟨e1, e2, e3, e4⟩ := insertParts_effect n n.path t t' hins
        constructor
        · rw [heq, hins]
          constructor
          · intro hc
            exact absurd hc (by simp)
          · rintro ⟨i, j, hij, hjl, hcl', hpp'⟩
            exfalso
            rw [hlen] at hjl
            rcases Nat.lt_succ_iff_lt_or_eq.mp hjl with hjl | hjl
            · apply hnofail
              refine ⟨i, j, hij, hjl, ?_, ?_⟩
              · exact (claimedAsLeaf_append notes n i (Nat.lt_trans hij hjl)).mp hcl'
              · rw [noteAt_append_lt _ _ _ (Nat.lt_trans hij hjl),
                  noteAt_append_lt _ _ _ hjl] at hpp'
                exact hpp'
            · subst hjl
              have hilen : i < notes.length := hij
              rw [noteAt_append_lt _ _ _ hilen, noteAt_append_self] at hpp'
              have hclm : claimedAsLeaf notes i :=
                (claimedAsLeaf_append notes n i hilen).mp hcl'
              obtain ⟨r, hr, hqr⟩ := (properPre_iff_append _ _).mp hpp'
              have hleaf : t.isNoteAt (noteAt notes i).path = some (noteAt notes i) :=
                (hS2 _ _).mpr ⟨i, hilen, rfl, hclm, rfl⟩
              have hnone : NoteFileTree.insertParts n n.path t = none :=
                (insertParts_none_iff n n.path t).mpr
                  ⟨(noteAt notes i).path, r, hqr, hr, _, hleaf⟩
              rw [hnone] at hins
              exact absurd hins (by simp)
        · intro t'' ht''
          rw [heq, hins] at ht''
          simp only [Option.some.injEq] at ht''
          subst ht''
          constructor
          · intro q m
            by_cases hq : q = n.path
            · subst hq
              by_cases hent : t.entryAt n.path = none
              · rw [e2 hent]
                have hnp : n.path ≠ [] := by
                  intro h0
                  rw [h0, entryAt_nil] at hent
                  exact absurd hent (by simp)
                constructor
                · intro hsm
                  have hmn : m = n := by simpa using hsm.symm
                  refine ⟨notes.length, by rw [hlen]; omega, ?_, ?_, ?_⟩
                  · rw [noteAt_append_self]
                  · rw [claimedAsLeaf_last]
                    refine ⟨hnp, fun k hk => ?_⟩
                    cases hlp : listIsPre n.path (noteAt notes k).path with
                    | false => rfl
                    | true =>
                      exfalso
                      have hsome : (t.entryAt n.path).isSome = true :=
                        (hS3 n.path).mpr (Or.inr ⟨k, hk, hnp, hlp⟩)
                      rw [hent] at hsome
                      exact absurd hsome (by simp)
                  · rw [noteAt_append_self]
                    exact hmn
                · rintro ⟨i, hi, hpath, hcl', hmval⟩
                  rw [hlen] at hi
                  rcases Nat.lt_succ_iff_lt_or_eq.mp hi with hi | hi
                  · exfalso
                    rw [noteAt_append_lt _ _ _ hi] at hpath hmval
                    have hclm : claimedAsLeaf notes i :=
                      (claimedAsLeaf_append notes n i hi).mp hcl'
                    have hleaf : t.isNoteAt (noteAt notes i).path =
                        some (noteAt notes i) :=
                      (hS2 _ _).mpr ⟨i, hi, rfl, hclm, rfl⟩
                    rw [hpath] at hleaf
                    have hsome := isNoteAt_some_entry hleaf
                    rw [hent] at hsome
                    exact absurd hsome (by simp)
                  · subst hi
                    rw [noteAt_append_self] at hmval
                    rw [hmval]
              · rw [e3 hent, hS2 n.path m]
                constructor
                · rintro ⟨i, hi, hpath, hclm, hmval⟩
                  refine ⟨i, by rw [hlen]; omega, ?_, ?_, ?_⟩
                  · rw [noteAt_append_lt _ _ _ hi]; exact hpath
                  · exact (claimedAsLeaf_append notes n i hi).mpr hclm
                  · rw [noteAt_append_lt _ _ _ hi]; exact hmval
                · rintro ⟨i, hi, hpath, hcl', hmval⟩
                  rw [hlen] at hi
                  rcases Nat.lt_succ_iff_lt_or_eq.mp hi with hi | hi
                  · rw [noteAt_append_lt _ _ _ hi] at hpath hmval
                    exact ⟨i, hi, hpath,
                      (claimedAsLeaf_append notes n i hi).mp hcl', hmval⟩
                  · exfalso
                    subst hi
                    rw [claimedAsLeaf_last] at hcl'
                    obtain ⟨hnp, hforall⟩ := hcl'
                    have hsome : (t.entryAt n.path).isSome = true := by
                      cases he : t.entryAt n.path with
                      | none => exact absurd he hent
                      | some e => simp
                    rcases (hS3 n.path).mp hsome with h0 | ⟨k, hk, _, hlp⟩
                    · exact hnp h0
                    · rw [hforall k hk] at hlp
                      exact absurd hlp (by simp)
            · rw [e1 q hq, hS2 q m]
              constructor
              · rintro ⟨i, hi, hpath, hclm, hmval⟩
                refine ⟨i, by rw [hlen]; omega, ?_, ?_, ?_⟩
                · rw [noteAt_append_lt _ _ _ hi]; exact hpath
                · exact (claimedAsLeaf_append notes n i hi).mpr hclm
                · rw [noteAt_append_lt _ _ _ hi]; exact hmval
              · rintro ⟨i, hi, hpath, hcl', hmval⟩
                rw [hlen] at hi
                rcases Nat.lt_succ_iff_lt_or_eq.mp hi with hi | hi
                · rw [noteAt_append_lt _ _ _ hi] at hpath hmval
                  exact ⟨i, hi, hpath,
                    (claimedAsLeaf_append notes n i hi).mp hcl', hmval⟩
                · exfalso
                  subst hi
                  rw [noteAt_append_self] at hpath
                  exact hq hpath.symm
          · intro q
            rw [e4 q]
            constructor
            · rintro (hold | ⟨hq, hpre⟩)
              · rcases (hS3 q).mp hold with h0 | ⟨i, hi, hq, hlp⟩
                · exact Or.inl h0
                · refine Or.inr ⟨i, by rw [hlen]; omega, hq, ?_⟩
                  rw [noteAt_append_lt _ _ _ hi]
                  exact hlp
              · refine Or.inr ⟨notes.length, by rw [hlen]; omega, hq, ?_⟩
                rw [noteAt_append_self]
                exact hpre
            · rintro (h0 | ⟨i, hi, hq, hlp⟩)
              · exact Or.inl ((hS3 q).mpr (Or.inl h0))
              · rw [hlen] at hi
                rcases Nat.lt_succ_iff_lt_or_eq.mp hi with hi | hi
                · rw [noteAt_append_lt _ _ _ hi] at hlp
                  exact Or.inl ((hS3 q).mpr (Or.inr ⟨i, hi, hq, hlp⟩))
                · subst hi
                  rw [noteAt_append_self] at hlp
                  exact Or.inr ⟨hq, hlp⟩

/-! ### Claim C5 -/

/-- A note whose whole path is later claimed as a directory. -/
def n5a : NoteMetadata :=
  { id := ⟨['5', '0', '0', '0', '0', '1']⟩, created := 0, last_updated := 0,
    path := ["a"], tags := [] }

/-- A note whose path passes through `n5a`'s path. -/
def n5b : NoteMetadata :=
  { id := ⟨['5', '0', '0', '0', '0', '2']⟩, created := 0, last_updated := 0,
    path := ["a", "b"], tags := [] }

/-- The order of the notes decides the outcome: with the leaf-claimer
first the construction fails, with the directory-claimer first it
succeeds but silently drops `n5a`, although the leaf/directory conflict
between the two paths is the same set-level fact either way. -/
theorem C5_counterexample :
    properPre n5a.path n5b.path = true ∧
    (NoteFileTree.from_iter [n5a, n5b]).isNone = true ∧
    (NoteFileTree.from_iter [n5b, n5a]).isSome = true ∧
    (NoteFileTree.from_iter [n5b, n5a]).map (fun t => t.isNoteAt n5a.path) =
      some none := by
  decide

/-- C5: `from_iter` returns no tree exactly when some note's full path is
a proper prefix of a later note's path after having actually been claimed
as a leaf — i.e. the note's path is nonempty and no earlier note's path
has it as a weak prefix. The outcome is order-dependent, not a property
of the set of notes alone, and a returned tree holds at each claimed path
exactly the first note that claimed it as a leaf; notes whose path was
already occupied (by an equal path or an interior node) are silently
dropped rather than failing the construction. -/
theorem C5_from_iter_characterization (notes : List NoteMetadata) :
    (NoteFileTree.from_iter notes = none ↔ fromIterFails notes) ∧
    (∀ t, NoteFileTree.from_iter notes = some t →
      ∀ q m, t.isNoteAt q = some m ↔
        ∃ i, i < notes.length ∧ (noteAt notes i).path = q ∧
          claimedAsLeaf notes i ∧ m = noteAt notes i) := by
  obtain ⟨h1, h2⟩ := from_iter_spec notes
  exact ⟨h1, fun t ht => (h2 t ht).1⟩

/-- The characterization applied at a concrete failing input: the failure
predicate holds for `[n5a, n5b]` because the construction returns no
tree. -/
theorem C5_from_iter_characterization_witness : fromIterFails [n5a, n5b] :=
  (C5_from_iter_characterization [n5a, n5b]).1.mp
    (Option.isNone_iff_eq_none.mp (by decide))

/-! ### The walked leaf paths: membership and distinctness -/

theorem leafPathsL_shape : ∀ (cs : Children) (parent q : VPath),
    q ∈ Children.leafPathsL parent cs →
    ∃ k rest, q = parent ++ k :: rest ∧ k ∈ Children.keys cs
  | .nil, parent, q, h => by simp [Children.leafPathsL] at h
  | .cons name (.note m) rest, parent, q, h => by
    simp only [Children.leafPathsL, List.mem_cons] at h
    cases h with
    | inl h => exact ⟨name, [], h, by simp [Children.keys]⟩
    | inr h =>
      obtain ⟨k, r, hq, hk⟩ := leafPathsL_shape rest parent q h
      exact ⟨k, r, hq, by simp [Children.keys, hk]⟩
  | .cons name (.tree lu cs') rest, parent, q, h => by
    simp only [Children.leafPathsL, List.mem_append] at h
    cases h with
    | inl h =>
      obtain ⟨k, r, hq, hk⟩ := leafPathsL_shape cs' (parent ++ [name]) q h
      refine ⟨name, k :: r, ?_, by simp [Children.keys]⟩
      rw [hq, List.append_assoc]
      rfl
    | inr h =>
      obtain ⟨k, r, hq, hk⟩ := leafPathsL_shape rest parent q h
      exact ⟨k, r, hq, by simp [Children.keys, hk]⟩

theorem leafPathsL_mem : ∀ (cs : Children) (parent q : VPath), ChildrenWF cs →
    (q ∈ Children.leafPathsL parent cs ↔
      ∃ rel m, q = parent ++ rel ∧ rel ≠ [] ∧
        NoteFileTree.isNoteAt (.tree none cs) rel = some m)
  | .nil, parent, q, _ => by
    simp only [Children.leafPathsL, List.not_mem_nil, false_iff]
    rintro ⟨rel, m, hq, hrel, hm⟩
    cases rel with
    | nil => exact hrel rfl
    | cons x r => simp [isNoteAt_cons, Children.clookup] at hm
  | .cons name c rest, parent, q, hwf => by
    have hc := childrenWF_head hwf
    have hrest := childrenWF_rest hwf
    have hb := childrenWF_bound hwf
    have hnm : Children.clookup name rest = none :=
      clookup_none_of_not_mem (bound_not_mem hb)
    constructor
    · intro h
      cases c with
      | note m =>
        simp only [Children.leafPathsL, List.mem_cons] at h
        cases h with
        | inl h =>
          refine ⟨[name], m, h, by simp, ?_⟩
          simp [isNoteAt_cons, Children.clookup, isNoteAt_nil_note]
        | inr h =>
          obtain ⟨rel, m', hq, hrel, hm⟩ := (leafPathsL_mem rest parent q hrest).mp h
          cases rel with
          | nil => exact absurd rfl hrel
          | cons x r =>
            refine ⟨x :: r, m', hq, by simp, ?_⟩
            simp only [isNoteAt_cons, Children.clookup] at hm ⊢
            have hxname : x ≠ name := by
              intro he
              subst he
              rw [hnm] at hm
              exact absurd hm (by simp)
            rw [if_neg hxname]
            exact hm
      | tree lu cs' =>
        simp only [Children.leafPathsL, List.mem_append] at h
        cases h with
        | inl h =>
          obtain ⟨rel, m', hq, hrel, hm⟩ :=
            (leafPathsL_mem cs' (parent ++ [name]) q (treeWF_children hc)).mp h
          refine ⟨name :: rel, m', by rw [hq, List.append_assoc]; rfl, by simp, ?_⟩
          simp only [isNoteAt_cons, Children.clookup, if_pos]
          rw [isNoteAt_lu lu none]
          exact hm
        | inr h =>
          obtain ⟨rel, m', hq, hrel, hm⟩ := (leafPathsL_mem rest parent q hrest).mp h
          cases rel with
          | nil => exact absurd rfl hrel
          | cons x r =>
            refine ⟨x :: r, m', hq, by simp, ?_⟩
            simp only [isNoteAt_cons, Children.clookup] at hm ⊢
            have hxname : x ≠ name := by
              intro he
              subst he
              rw [hnm] at hm
              exact absurd hm (by simp)
            rw [if_neg hxname]
            exact hm
    · rintro ⟨rel, m', hq, hrel, hm⟩
      cases rel with
      | nil => exact absurd rfl hrel
      | cons x r =>
        simp only [isNoteAt_cons, Children.clookup] at hm
        by_cases hxname : x = name
        · subst hxname
          rw [if_pos rfl] at hm
          cases c with
          | note m0 =>
            replace hm : (NoteFileTree.note m0).isNoteAt r = some m' := hm
            cases r with
            | nil =>
              simp only [Children.leafPathsL, List.mem_cons]
              exact Or.inl hq
            | cons y r' =>
              rw [isNoteAt_cons_note] at hm
              exact absurd hm (by simp)
          | tree lu cs' =>
            replace hm : (NoteFileTree.tree lu cs').isNoteAt r = some m' := hm
            cases r with
            | nil =>
              rw [isNoteAt_nil_tree] at hm
              exact absurd hm (by simp)
            | cons y r' =>
              simp only [Children.leafPathsL, List.mem_append]
              refine Or.inl ((leafPathsL_mem cs' (parent ++ [x]) q
                (treeWF_children hc)).mpr ⟨y :: r', m', ?_, by simp, ?_⟩)
              · rw [hq, List.append_assoc]
                rfl
              · rw [isNoteAt_lu none lu]
                exact hm
        · rw [if_neg hxname] at hm
          have hmem : q ∈ Children.leafPathsL parent rest :=
            (leafPathsL_mem rest parent q hrest).mpr
              ⟨x :: r, m', hq, by simp, by simp only [isNoteAt_cons]; exact hm⟩
          cases c with
          | note m0 => simp [Children.leafPathsL, hmem]
          | tree lu cs' => simp [Children.leafPathsL, hmem]

/-- The walked leaf paths of a node, characterized: the nonempty relative
paths that hold a note. -/
theorem leafPaths_mem (t : NoteFileTree) (parent q : VPath) (hwf : TreeWF t) :
    q ∈ NoteFileTree.leafPaths parent t ↔
      ∃ rel m, q = parent ++ rel ∧ rel ≠ [] ∧ t.isNoteAt rel = some m := by
  cases t with
  | note m =>
    simp only [NoteFileTree.leafPaths, List.not_mem_nil, false_iff]
    rintro ⟨rel, m', hq, hrel, hm⟩
    cases rel with
    | nil => exact hrel rfl
    | cons x r =>
      rw [isNoteAt_cons_note] at hm
      exact absurd hm (by simp)
  | tree lu cs =>
    rw [NoteFileTree.leafPaths, leafPathsL_mem cs parent q (treeWF_children hwf)]
    constructor
    · rintro ⟨rel, m', hq, hrel, hm⟩
      exact ⟨rel, m', hq, hrel, by rw [isNoteAt_lu lu none]; exact hm⟩
    · rintro ⟨rel, m', hq, hrel, hm⟩
      exact ⟨rel, m', hq, hrel, by rw [isNoteAt_lu none lu]; exact hm⟩

mutual
theorem leafPaths_nodup : ∀ (t : NoteFileTree) (parent : VPath), TreeWF t →
    (NoteFileTree.leafPaths parent t).Nodup
  | .note _, parent, _ => by simp [NoteFileTree.leafPaths]
  | .tree lu cs, parent, hwf => by
    rw [NoteFileTree.leafPaths]
    exact leafPathsL_nodup cs parent (treeWF_children hwf)

theorem leafPathsL_nodup : ∀ (cs : Children) (parent : VPath), ChildrenWF cs →
    (Children.leafPathsL parent cs).Nodup
  | .nil, parent, _ => by simp [Children.leafPathsL]
  | .cons name c rest, parent, hwf => by
    have hc := childrenWF_head hwf
    have hrest := childrenWF_rest hwf
    have hb := childrenWF_bound hwf
    have hother : ∀ q ∈ Children.leafPathsL parent rest,
        ∃ k r, q = parent ++ k :: r ∧ k ≠ name := by
      intro q hq
      obtain ⟨k, r, hshape, hk⟩ := leafPathsL_shape rest parent q hq
      exact ⟨k, r, hshape, (strLt_ne (hb k hk)).symm⟩
    cases c with
    | note m =>
      simp only [Children.leafPathsL, List.nodup_cons]
      refine ⟨?_, leafPathsL_nodup rest parent hrest⟩
      intro hmem
      obtain ⟨k, r, hshape, hkname⟩ := hother _ hmem
      have := List.append_cancel_left hshape
      simp only [List.cons.injEq] at this
      exact hkname this.1.symm
    | tree lu' cs' =>
      simp only [Children.leafPathsL]
      refine List.Nodup.append
        (leafPaths_nodup (.tree lu' cs') (parent ++ [name]) hc)
        (leafPathsL_nodup rest parent hrest) ?_
      intro q hq1 hq2
      have hq1' : q ∈ Children.leafPathsL (parent ++ [name]) cs' := by
        simpa [NoteFileTree.leafPaths] using hq1
      obtain ⟨k1, r1, hs1, _⟩ := leafPathsL_shape cs' (parent ++ [name]) q hq1'
      obtain ⟨k2, r2, hs2, hk2⟩ := hother q hq2
      rw [hs2] at hs1
      rw [List.append_assoc] at hs1
      have := (List.append_cancel_left hs1.symm)
      simp only [List.cons_append, List.nil_append, List.cons.injEq] at this
      exact hk2 this.1.symm
end

/-! ### Store construction from a directory of distinct notes -/

theorem alookup_append {α β : Type} [DecidableEq α] (k : α) :
    ∀ (l1 l2 : List (α × β)), alookup k (l1 ++ l2) =
      match alookup k l1 with
      | some v => some v
      | none => alookup k l2
  | [], l2 => rfl
  | (k', v') :: rest, l2 => by
    by_cases h : k = k'
    · simp [alookup, h]
    · simp [alookup, h, alookup_append k rest l2]

theorem ainsert_append_of_none {α β : Type} [DecidableEq α] (k : α) (v : β) :
    ∀ (l : List (α × β)), alookup k l = none → ainsert k v l = l ++ [(k, v)]
  | [], _ => rfl
  | (k', v') :: rest, h => by
    by_cases he : k = k'
    · rw [alookup, if_pos he] at h
      exact absurd h (by simp)
    · rw [alookup, if_neg he] at h
      simp [ainsert, he, ainsert_append_of_none k v rest h]

theorem alookup_map_key {α β γ : Type} [DecidableEq α] (key : β → α) (val : β → γ) :
    ∀ (l : List β) (b : β), b ∈ l → List.Pairwise (fun x y => key x ≠ key y) l →
      alookup (key b) (l.map fun x => (key x, val x)) = some (val b)
  | [], b, hb, _ => absurd hb (List.not_mem_nil b)
  | x :: rest, b, hb, hp => by
    rcases List.mem_cons.mp hb with hb | hb
    · subst hb
      simp [alookup]
    · have hne : key x ≠ key b := (List.pairwise_cons.mp hp).1 b hb
      simp only [List.map_cons, alookup, if_neg (Ne.symm hne)]
      exact alookup_map_key key val rest b hb (List.pairwise_cons.mp hp).2

theorem alookup_map_key_none {α β γ : Type} [DecidableEq α] (key : β → α) (val : β → γ)
    (k : α) : ∀ (l : List β), (∀ b ∈ l, key b ≠ k) →
      alookup k (l.map fun x => (key x, val x)) = none
  | [], _ => rfl
  | x :: rest, h => by
    have hxk : ¬ k = key x := fun he => h x (by simp) he.symm
    simp only [List.map_cons, alookup, if_neg hxk]
    exact alookup_map_key_none key val k rest (fun b hb => h b (by simp [hb]))

theorem from_list_aux :
    ∀ (notes : List NoteMetadata) (acc : NoteMetadataStorage),
      (∀ n ∈ notes, alookup n.id acc.id_to_notes = none) →
      (∀ n ∈ notes, alookup n.path acc.path_to_id = none) →
      List.Pairwise (fun a b => a.id ≠ b.id) notes →
      List.Pairwise (fun a b => a.path ≠ b.path) notes →
      notes.foldl NoteMetadataStorage.insertNote acc =
        { id_to_notes := acc.id_to_notes ++ notes.map (fun n => (n.id, n))
          path_to_id := acc.path_to_id ++ notes.map (fun n => (n.path, n.id)) }
  | [], acc, _, _, _, _ => by simp
  | n :: rest, acc, hid, hpath, hpi, hpp => by
    simp only [List.foldl_cons]
    have hinsert : NoteMetadataStorage.insertNote acc n =
        { id_to_notes := acc.id_to_notes ++ [(n.id, n)]
          path_to_id := acc.path_to_id ++ [(n.path, n.id)] } := by
      simp [NoteMetadataStorage.insertNote,
        ainsert_append_of_none n.id n acc.id_to_notes (hid n (by simp)),
        ainsert_append_of_none n.path n.id acc.path_to_id (hpath n (by simp))]
    rw [hinsert]
    have h1 : ∀ r ∈ rest, alookup r.id
        (acc.id_to_notes ++ [(n.id, n)]) = none := by
      intro r hr
      rw [alookup_append, hid r (by simp [hr])]
      have hne : r.id ≠ n.id := ((List.pairwise_cons.mp hpi).1 r hr).symm
      simp [alookup, hne]
    have h2 : ∀ r ∈ rest, alookup r.path
        (acc.path_to_id ++ [(n.path, n.id)]) = none := by
      intro r hr
      rw [alookup_append, hpath r (by simp [hr])]
      have hne : r.path ≠ n.path := ((List.pairwise_cons.mp hpp).1 r hr).symm
      simp [alookup, hne]
    rw [from_list_aux rest
        ⟨acc.id_to_notes ++ [(n.id, n)], acc.path_to_id ++ [(n.path, n.id)]⟩
        h1 h2 (List.pairwise_cons.mp hpi).2 (List.pairwise_cons.mp hpp).2]
    simp

/-- With pairwise-distinct ids and paths, `from_dir` produces exactly the
two maps of the note list, in order. -/
theorem from_list_eq (notes : List NoteMetadata)
    (hpi : List.Pairwise (fun a b => a.id ≠ b.id) notes)
    (hpp : List.Pairwise (fun a b => a.path ≠ b.path) notes) :
    NoteMetadataStorage.from_list notes =
      { id_to_notes := notes.map (fun n => (n.id, n))
        path_to_id := notes.map (fun n => (n.path, n.id)) } := by
  unfold NoteMetadataStorage.from_list
  rw [from_list_aux notes ⟨[], []⟩ (fun _ _ => rfl) (fun _ _ => rfl) hpi hpp]
  simp

theorem load_all_append (a b : FsMap) : load_all (a ++ b) = load_all a ++ load_all b := by
  simp [load_all]

theorem load_all_mkFs : ∀ (cs : List (NoteMetadata × String)),
    load_all (mkFs cs) = cs.map Prod.fst
  | [] => rfl
  | (m, c) :: rest => by
    have hfs : mkFs ((m, c) :: rest) =
        [(note_storage_path m.id, Blob.text c),
         (note_metadata_path m.id, Blob.meta m)] ++ mkFs rest := by
      simp [mkFs]
    rw [hfs, load_all_append, load_all_mkFs rest]
    rfl

theorem mkFs_lookup_isSome : ∀ (cs : List (NoteMetadata × String)) (n : NoteMetadata)
    (c : String), (n, c) ∈ cs →
    (alookup (note_storage_path n.id) (mkFs cs)).isSome = true ∧
    (alookup (note_metadata_path n.id) (mkFs cs)).isSome = true
  | [], n, c, h => absurd h (List.not_mem_nil _)
  | (m, c0) :: rest, n, c, h => by
    have hfs : mkFs ((m, c0) :: rest) =
        (note_storage_path m.id, Blob.text c0) ::
        (note_metadata_path m.id, Blob.meta m) :: mkFs rest := by
      simp [mkFs]
    rw [hfs]
    rcases List.mem_cons.mp h with h | h
    · have hm : n = m := (Prod.mk.injEq _ _ _ _ ▸ h).1
      subst hm
      refine ⟨by simp [alookup], ?_⟩
      simp only [alookup, if_neg (storage_path_ne_metadata_path n.id n.id).symm]
      simp [alookup]
    · obtain ⟨hs, hm'⟩ := mkFs_lookup_isSome rest n c h
      constructor <;> simp only [alookup] <;> split_ifs <;> simp [hs, hm']

theorem mkFs_aremove_pair : ∀ (cs : List (NoteMetadata × String)) (id : NoteId),
    aremove (note_metadata_path id) (aremove (note_storage_path id) (mkFs cs)) =
      mkFs (cs.filter (fun x => !(x.1.id == id)))
  | [], id => rfl
  | (m, c0) :: rest, id => by
    have hfs : mkFs ((m, c0) :: rest) =
        (note_storage_path m.id, Blob.text c0) ::
        (note_metadata_path m.id, Blob.meta m) :: mkFs rest := by
      simp [mkFs]
    rw [hfs]
    by_cases hid : m.id = id
    · subst hid
      have e1 : note_storage_path m.id ≠ note_metadata_path m.id :=
        storage_path_ne_metadata_path m.id m.id
      simp [aremove, e1, e1.symm, mkFs_aremove_pair rest m.id]
    · have k1 : note_storage_path id ≠ note_storage_path m.id :=
        fun h => hid (note_storage_path_inj h).symm
      have k2 : note_metadata_path id ≠ note_metadata_path m.id :=
        fun h => hid (note_metadata_path_inj h).symm
      have k3 : note_metadata_path id ≠ note_storage_path m.id :=
        (storage_path_ne_metadata_path m.id id).symm
      have k4 : note_storage_path id ≠ note_metadata_path m.id :=
        storage_path_ne_metadata_path id m.id
      have hfs2 : mkFs ((m, c0) :: rest.filter (fun x => !(x.1.id == id))) =
          (note_storage_path m.id, Blob.text c0) ::
          (note_metadata_path m.id, Blob.meta m) ::
          mkFs (rest.filter (fun x => !(x.1.id == id))) := by
        simp [mkFs]
      have hkeep : ((m, c0) :: rest).filter (fun x => !(x.1.id == id)) =
          (m, c0) :: rest.filter (fun x => !(x.1.id == id)) := by
        simp [List.filter_cons, hid]
      rw [hkeep, hfs2]
      simp [aremove, k1, k2, k3, k4, mkFs_aremove_pair rest id]

theorem foldl_remove_mkFs : ∀ (L : List NoteMetadata) (cs : List (NoteMetadata × String)),
    L.foldl (fun fs n => aremove (note_metadata_path n.id)
      (aremove (note_storage_path n.id) fs)) (mkFs cs) =
      mkFs (cs.filter (fun x => !(L.map NoteMetadata.id).contains x.1.id))
  | [], cs => by simp
  | n :: L', cs => by
    simp only [List.foldl_cons]
    rw [mkFs_aremove_pair cs n.id, foldl_remove_mkFs L' _, List.filter_filter]
    congr 1
    refine List.filter_congr ?_
    intro x _
    cases h1 : x.1.id == n.id <;>
      cases h2 : (L'.map NoteMetadata.id).contains x.1.id <;>
      simp only [List.map_cons, List.contains_cons, h1, h2] <;> rfl

/-! ### Execution framework lemmas -/

theorem execute_append (collab : Collab) :
    ∀ (l1 l2 : List Command) (s : CI),
      CI.execute collab s (l1 ++ l2) =
        match CI.execute collab s l1 with
        | (s', none) => CI.execute collab s' l2
        | (s', some e) => (s', some e)
  | [], l2, s => by simp [CI.execute]
  | c :: rest, l2, s => by
    simp only [List.cons_append, CI.execute]
    cases hc : s.runCmd collab c with
    | mk s1 r =>
      cases r with
      | some e => simp
      | none => simp [execute_append collab rest l2 s1]

theorem stepCommit_frame (s : CI) :
    (s.stepCommit).1.fs = s.fs ∧ (s.stepCommit).2 = none := by
  unfold CI.stepCommit CI.openTheIndex
  refine ⟨?_, ?_⟩ <;> (dsimp only; split <;> rfl)

theorem entryAt_append : ∀ (p q : VPath) (t : NoteFileTree),
    t.entryAt (p ++ q) = match t.entryAt p with
      | some sub => sub.entryAt q
      | none => none
  | [], q, t => by simp [entryAt_nil]
  | x :: p', q, t => by
    cases t with
    | note m => simp [NoteFileTree.entryAt]
    | tree lu cs =>
      simp only [List.cons_append, entryAt_cons]
      cases hcl : Children.clookup x cs with
      | none => rfl
      | some c => exact entryAt_append p' q c

theorem find_entryAt {t sub : NoteFileTree} {p : VPath} (h : t.find p = some sub) :
    t.entryAt p = some sub := by
  cases p with
  | nil => simpa [NoteFileTree.find, entryAt_nil] using h
  | cons x r => exact h

/-- Executing a batch of `RemoveNote` primitives over resolvable notes
with distinct ids and both files present: every removal succeeds, the
cache, HEAD and commit log survive, and the working tree is the fold of
the per-note file deletions. -/
theorem execute_removes (collab : Collab) :
    ∀ (L : List NoteMetadata) (s : CI) (st : NoteMetadataStorage),
      s.storage = some st →
      (∀ n ∈ L, st.get_id n.path = some n.id) →
      (∀ n ∈ L, alookup n.id st.id_to_notes = some n) →
      (∀ n ∈ L, (alookup (note_storage_path n.id) s.fs).isSome = true ∧
                (alookup (note_metadata_path n.id) s.fs).isSome = true) →
      List.Pairwise (fun a b => a.id ≠ b.id) L →
      ∃ s', CI.execute collab s (L.map fun n => Command.removeNote n.path) = (s', none) ∧
        s'.storage = some st ∧ s'.head = s.head ∧ s'.commits = s.commits ∧
        s'.fs = L.foldl (fun fs n => aremove (note_metadata_path n.id)
          (aremove (note_storage_path n.id) fs)) s.fs
  | [], s, st, hst, _, _, _, _ => ⟨s, rfl, hst, rfl, rfl, rfl⟩
  | n :: L', s, st, hst, hres, hmem, hfiles, hpw => by
    obtain ⟨bc, hbc⟩ := Option.isSome_iff_exists.mp (hfiles n (by simp)).1
    obtain ⟨bm, hbm⟩ := Option.isSome_iff_exists.mp (hfiles n (by simp)).2
    have e := remove_note_eq s st n.path n.id n bc bm hst (hres n (by simp))
      (hmem n (by simp)) hbc hbm
    have hpairs := List.pairwise_cons.mp hpw
    have hfiles1 : ∀ r ∈ L',
        (alookup (note_storage_path r.id) (s.remove_note n.path).1.fs).isSome = true ∧
        (alookup (note_metadata_path r.id) (s.remove_note n.path).1.fs).isSome = true := by
      intro r hr
      have hid : r.id ≠ n.id := fun h => (hpairs.1 r hr) h.symm
      have k1 : note_storage_path r.id ≠ note_storage_path n.id :=
        fun h => hid (note_storage_path_inj h)
      have k2 : note_metadata_path r.id ≠ note_metadata_path n.id :=
        fun h => hid (note_metadata_path_inj h)
      have k3 : note_storage_path r.id ≠ note_metadata_path n.id :=
        storage_path_ne_metadata_path r.id n.id
      have k4 : note_metadata_path r.id ≠ note_storage_path n.id :=
        (storage_path_ne_metadata_path n.id r.id).symm
      rw [e]
      constructor
      · show (alookup (note_storage_path r.id) (aremove (note_metadata_path n.id)
          (aremove (note_storage_path n.id) s.fs))).isSome = true
        rw [alookup_aremove_ne _ _ _ k3, alookup_aremove_ne _ _ _ k1]
        exact (hfiles r (by simp [hr])).1
      · show (alookup (note_metadata_path r.id) (aremove (note_metadata_path n.id)
          (aremove (note_storage_path n.id) s.fs))).isSome = true
        rw [alookup_aremove_ne _ _ _ k2, alookup_aremove_ne _ _ _ k4]
        exact (hfiles r (by simp [hr])).2
    obtain ⟨s', hexec, hstor, hhead, hcommits, hfs⟩ :=
      execute_removes collab L' (s.remove_note n.path).1 st
        (by rw [e]; exact hst)
        (fun r hr => hres r (by simp [hr]))
        (fun r hr => hmem r (by simp [hr]))
        hfiles1 hpairs.2
    refine ⟨s', ?_, hstor, ?_, ?_, ?_⟩
    · have hsplit : s.remove_note n.path = ((s.remove_note n.path).1, none) := by
        rw [e]
      simp only [List.map_cons, CI.execute, CI.runCmd]
      rw [hsplit]
      exact hexec
    · rw [hhead, e]
    · rw [hcommits, e]
    · rw [hfs, List.foldl_cons, e]

theorem noteAt_eq_getElem (notes : List NoteMetadata) (i : Nat) (h : i < notes.length) :
    noteAt notes i = notes[i] := by
  simp [noteAt, List.getD_eq_getElem?_getD, List.getElem?_eq_getElem h]

theorem noteAt_mem (notes : List NoteMetadata) (i : Nat) (h : i < notes.length) :
    noteAt notes i ∈ notes := by
  rw [noteAt_eq_getElem notes i h]
  exact List.getElem_mem h

theorem isNoteAt_of_entry_tree {t sub : NoteFileTree} {q : VPath}
    (h : t.entryAt q = some sub) (ht : sub.is_tree = true) : t.isNoteAt q = none := by
  unfold NoteFileTree.isNoteAt
  rw [h]
  cases sub with
  | note m => simp [NoteFileTree.is_tree] at ht
  | tree lu cs => rfl

theorem mkFs_lookup_none : ∀ (cs : List (NoteMetadata × String)) (id : NoteId),
    (∀ x ∈ cs, x.1.id ≠ id) →
    alookup (note_storage_path id) (mkFs cs) = none ∧
    alookup (note_metadata_path id) (mkFs cs) = none
  | [], id, _ => ⟨rfl, rfl⟩
  | (m, c0) :: rest, id, h => by
    have hfs : mkFs ((m, c0) :: rest) =
        (note_storage_path m.id, Blob.text c0) ::
        (note_metadata_path m.id, Blob.meta m) :: mkFs rest := by
      simp [mkFs]
    have hid : m.id ≠ id := h (m, c0) (by simp)
    have k1 : note_storage_path id ≠ note_storage_path m.id :=
      fun hc => hid (note_storage_path_inj hc).symm
    have k2 : note_metadata_path id ≠ note_metadata_path m.id :=
      fun hc => hid (note_metadata_path_inj hc).symm
    have k3 : note_metadata_path id ≠ note_storage_path m.id :=
      (storage_path_ne_metadata_path m.id id).symm
    have k4 : note_storage_path id ≠ note_metadata_path m.id :=
      storage_path_ne_metadata_path id m.id
    have ih := mkFs_lookup_none rest id (fun x hx => h x (by simp [hx]))
    rw [hfs]
    constructor
    · simp only [alookup, if_neg k1, if_neg k4]
      exact ih.1
    · simp only [alookup, if_neg k3, if_neg k2]
      exact ih.2

/-- C6: for a remove request on a path `p` holding an interior node of
the virtual tree — over a repository of notes with distinct ids, pairwise
prefix-free nonempty paths, and no path or request token that parses as a
note identifier — without `recursive` the planner emits the literal
removal, whose execution fails with a not-found error and changes
nothing; with `recursive` the planner emits one removal per walked leaf
(covering every note strictly under `p`), the batch plus its commit
succeeds, and afterwards every note formerly under `p` has both files
gone and no longer resolves in a fresh load of the directory. -/
theorem C6_remove_directory (collab : Collab)
    (cs : List (NoteMetadata × String)) (notes : List NoteMetadata)
    (s : CI) (st : NoteMetadataStorage) (T sub : NoteFileTree) (wd p : VPath)
    (hnotes : notes = cs.map Prod.fst)
    (hfs : s.fs = mkFs cs)
    (hst : s.storage = some st)
    (hstdef : st = NoteMetadataStorage.from_fs s.fs)
    (hpi : List.Pairwise (fun a b => a.id ≠ b.id) notes)
    (hpf : List.Pairwise (fun a b => listIsPre a.path b.path = false ∧
        listIsPre b.path a.path = false) notes)
    (hne : ∀ n ∈ notes, n.path ≠ [])
    (hnid : ∀ n ∈ notes, NoteId.from_str (VPath.render n.path) = none)
    (hpid : NoteId.from_str (VPath.render p) = none)
    (hglob : (VPath.render p).toList.contains '*' = false)
    (hT : NoteFileTree.from_iter st.notes = some T)
    (hfind : T.find p = some sub)
    (hsub : sub.is_tree = true) :
    (create_remove_commands st wd p false = [Command.removeNote p] ∧
      CI.execute collab s (create_remove_commands st wd p false ++ [Command.commit]) =
        (s, some (CErr.noteNotFound (VPath.render p)))) ∧
    (create_remove_commands st wd p true =
        (sub.leafPaths []).map (fun q => Command.removeNote (p ++ q)) ∧
      (∀ n ∈ notes, properPre p n.path = true →
        Command.removeNote n.path ∈ create_remove_commands st wd p true) ∧
      ∃ s', CI.execute collab s (create_remove_commands st wd p true ++ [Command.commit]) =
          (s', none) ∧
        ∀ n ∈ notes, properPre p n.path = true →
          alookup (note_storage_path n.id) s'.fs = none ∧
          alookup (note_metadata_path n.id) s'.fs = none ∧
          (NoteMetadataStorage.from_fs s'.fs).get_id n.path = none) := by
  have hpp : List.Pairwise (fun a b : NoteMetadata => a.path ≠ b.path) notes := by
    refine hpf.imp ?_
    intro a b hab he
    rw [he, listIsPre_refl] at hab
    exact absurd hab.1 (by simp)
  have hstmaps : st = { id_to_notes := notes.map (fun n => (n.id, n))
                        path_to_id := notes.map (fun n => (n.path, n.id)) } := by
    rw [hstdef, hfs]
    unfold NoteMetadataStorage.from_fs
    rw [load_all_mkFs, ← hnotes]
    exact from_list_eq notes hpi hpp
  have hstid : st.id_to_notes = notes.map (fun n => (n.id, n)) := by rw [hstmaps]
  have hstpath : st.path_to_id = notes.map (fun n => (n.path, n.id)) := by rw [hstmaps]
  have hstnotes : st.notes = notes := by
    unfold NoteMetadataStorage.notes
    rw [hstid, List.map_map,
      show (Prod.snd ∘ fun n : NoteMetadata => (n.id, n)) = fun n : NoteMetadata => n from rfl,
      List.map_id']
  have hT' : NoteFileTree.from_iter notes = some T := by rw [← hstnotes]; exact hT
  obtain ⟨hS2, hS3⟩ := (from_iter_spec notes).2 T hT'
  have hwfT : TreeWF T := from_iter_wf notes T hT'
  have hentry : T.entryAt p = some sub := find_entryAt hfind
  have hwfsub : TreeWF sub := entryAt_wf p T sub hwfT hentry
  have hclaimed : ∀ i, i < notes.length → claimedAsLeaf notes i := by
    intro i hi
    refine ⟨hi, hne _ (noteAt_mem notes i hi), ?_⟩
    intro k hk
    have hki : k < notes.length := Nat.lt_trans hk hi
    have hR := List.pairwise_iff_getElem.mp hpf k i hki hi hk
    rw [noteAt_eq_getElem _ _ hi, noteAt_eq_getElem _ _ hki]
    exact hR.2
  have hleafn : ∀ n ∈ notes, T.isNoteAt n.path = some n := by
    intro n hn
    obtain ⟨i, hi, hEq⟩ := List.mem_iff_getElem.mp hn
    refine (hS2 n.path n).mpr ⟨i, hi, ?_, hclaimed i hi, ?_⟩
    · rw [noteAt_eq_getElem _ _ hi, hEq]
    · rw [noteAt_eq_getElem _ _ hi, hEq]
  have hgetid : ∀ n ∈ notes, st.get_id n.path = some n.id := by
    intro n hn
    simp only [NoteMetadataStorage.get_id, NoteMetadataStorage.try_resolve_id,
      hnid n hn, hstpath]
    exact alookup_map_key NoteMetadata.path NoteMetadata.id notes n hn hpp
  have hmemid : ∀ n ∈ notes, alookup n.id st.id_to_notes = some n := by
    intro n hn
    rw [hstid]
    exact alookup_map_key NoteMetadata.id (fun x => x) notes n hn hpi
  have hnp_getid : st.get_id p = none := by
    simp only [NoteMetadataStorage.get_id, NoteMetadataStorage.try_resolve_id,
      hpid, hstpath]
    refine alookup_map_key_none NoteMetadata.path NoteMetadata.id p notes ?_
    intro n hn hnp
    have h1 := hleafn n hn
    rw [hnp, isNoteAt_of_entry_tree hentry hsub] at h1
    exact absurd h1 (by simp)
  have hidsne : ∀ a ∈ notes, ∀ b ∈ notes, a ≠ b → a.id ≠ b.id :=
    fun a ha b hb hab => List.Pairwise.forall (fun _ _ h => h.symm) hpi ha hb hab
  have hpathinj : ∀ a ∈ notes, ∀ b ∈ notes, a.path = b.path → a = b := by
    intro a ha b hb he
    by_contra hne2
    exact (List.Pairwise.forall (fun _ _ h => h.symm) hpp ha hb hne2) he
  have hcmds_a : create_remove_commands st wd p false = [Command.removeNote p] := by
    simp only [create_remove_commands, hglob, Bool.false_eq_true, if_false]
    simp [remove_inner, hT, hfind, hsub]
  have hrm_a : s.remove_note p = (s, some (CErr.noteNotFound (VPath.render p))) := by
    simp only [CI.remove_note, get_note_id_loaded_none s st p hst hnp_getid]
  have hexec_a : CI.execute collab s ([Command.removeNote p] ++ [Command.commit]) =
      (s, some (CErr.noteNotFound (VPath.render p))) := by
    simp only [List.cons_append, List.nil_append, CI.execute, CI.runCmd, hrm_a]
  have hcmds_b : create_remove_commands st wd p true =
      (sub.leafPaths []).map (fun q => Command.removeNote (p ++ q)) := by
    simp only [create_remove_commands, hglob, Bool.false_eq_true, if_false]
    simp [remove_inner, hT, hfind, hsub]
  have hcomp : ∀ rel, T.isNoteAt (p ++ rel) = sub.isNoteAt rel := by
    intro rel
    unfold NoteFileTree.isNoteAt
    rw [entryAt_append p rel T, hentry]
  have hqchar : ∀ q, q ∈ sub.leafPaths [] ↔
      (q ≠ [] ∧ ∃ m, sub.isNoteAt q = some m) := by
    intro q
    rw [leafPaths_mem sub [] q hwfsub]
    constructor
    · rintro ⟨rel, m, hqe, hrel, hm⟩
      simp only [List.nil_append] at hqe
      subst hqe
      exact ⟨hrel, m, hm⟩
    · rintro ⟨hq, m, hm⟩
      exact ⟨q, m, by simp, hq, hm⟩
  have hq_note : ∀ q ∈ sub.leafPaths [],
      sub.isNoteAt q = some ((sub.isNoteAt q).getD dnote) := by
    intro q hq
    obtain ⟨_, m, hm⟩ := (hqchar q).mp hq
    rw [hm]
    rfl
  have hq_mem_notes : ∀ q ∈ sub.leafPaths [],
      ((sub.isNoteAt q).getD dnote) ∈ notes ∧
      ((sub.isNoteAt q).getD dnote).path = p ++ q := by
    intro q hq
    have h1 : T.isNoteAt (p ++ q) = some ((sub.isNoteAt q).getD dnote) := by
      rw [hcomp]
      exact hq_note q hq
    obtain ⟨i, hi, hpath, hclm, hval⟩ := (hS2 _ _).mp h1
    constructor
    · rw [hval]
      exact noteAt_mem notes i hi
    · rw [hval]
      exact hpath
  have hLcmds : ((sub.leafPaths []).map (fun q => (sub.isNoteAt q).getD dnote)).map
      (fun n => Command.removeNote n.path) =
      (sub.leafPaths []).map (fun q => Command.removeNote (p ++ q)) := by
    rw [List.map_map]
    refine List.map_congr_left ?_
    intro q hq
    simp only [Function.comp]
    rw [(hq_mem_notes q hq).2]
  have hLpw : List.Pairwise (fun a b => a.id ≠ b.id)
      ((sub.leafPaths []).map (fun q => (sub.isNoteAt q).getD dnote)) := by
    rw [List.pairwise_map]
    refine List.Pairwise.imp_of_mem ?_ (leafPaths_nodup sub [] hwfsub)
    intro q1 q2 hq1 hq2 hne12
    have h1 := hq_mem_notes q1 hq1
    have h2 := hq_mem_notes q2 hq2
    refine hidsne _ h1.1 _ h2.1 ?_
    intro hval
    apply hne12
    have hpe := h1.2
    rw [hval, h2.2] at hpe
    exact (List.append_cancel_left hpe).symm
  have hLfiles : ∀ n ∈ (sub.leafPaths []).map (fun q => (sub.isNoteAt q).getD dnote),
      (alookup (note_storage_path n.id) s.fs).isSome = true ∧
      (alookup (note_metadata_path n.id) s.fs).isSome = true := by
    intro n hn
    obtain ⟨q, hq, hval⟩ := List.mem_map.mp hn
    have hmem := (hq_mem_notes q hq).1
    rw [hval] at hmem
    rw [hnotes] at hmem
    obtain ⟨x, hx, hxe⟩ := List.mem_map.mp hmem
    rw [hfs, ← hxe]
    exact mkFs_lookup_isSome cs x.1 x.2 hx
  obtain ⟨s', hexec_b, hstor', hhead', hcommits', hfs'⟩ :=
    execute_removes collab ((sub.leafPaths []).map (fun q => (sub.isNoteAt q).getD dnote))
      s st hst
      (fun n hn => by
        obtain ⟨q, hq, hval⟩ := List.mem_map.mp hn
        exact hgetid n (hval ▸ (hq_mem_notes q hq).1))
      (fun n hn => by
        obtain ⟨q, hq, hval⟩ := List.mem_map.mp hn
        exact hmemid n (hval ▸ (hq_mem_notes q hq).1))
      hLfiles hLpw
  obtain ⟨hscfs, hscnone⟩ := stepCommit_frame s'
  have hexec_full : CI.execute collab s
      (((sub.leafPaths []).map (fun q => Command.removeNote (p ++ q))) ++ [Command.commit]) =
      ((s'.stepCommit).1, none) := by
    rw [← hLcmds, execute_append, hexec_b]
    cases hsc : s'.stepCommit with
    | mk s2 r =>
      rw [hsc] at hscnone
      simp only at hscnone
      subst hscnone
      simp [CI.execute, CI.runCmd, hsc]
  have hfsfinal : (s'.stepCommit).1.fs =
      mkFs (cs.filter (fun x =>
        !(((sub.leafPaths []).map (fun q => (sub.isNoteAt q).getD dnote)).map
          NoteMetadata.id).contains x.1.id)) := by
    rw [hscfs, hfs', hfs]
    exact foldl_remove_mkFs _ cs
  have hunder : ∀ n ∈ notes, properPre p n.path = true →
      ∃ q ∈ sub.leafPaths [], (sub.isNoteAt q).getD dnote = n := by
    intro n hn hppn
    obtain ⟨r, hr, hre⟩ := (properPre_iff_append p n.path).mp hppn
    have h1 : T.isNoteAt (p ++ r) = some n := by
      rw [← hre]
      exact hleafn n hn
    have h2 : sub.isNoteAt r = some n := by
      rw [← hcomp]
      exact h1
    exact ⟨r, (hqchar r).mpr ⟨hr, n, h2⟩, by rw [h2]; rfl⟩
  refine ⟨⟨hcmds_a, by rw [hcmds_a]; exact hexec_a⟩, hcmds_b, ?_, ?_⟩
  · intro n hn hppn
    rw [hcmds_b]
    obtain ⟨q, hq, hval⟩ := hunder n hn hppn
    refine List.mem_map.mpr ⟨q, hq, ?_⟩
    have hqp := (hq_mem_notes q hq).2
    rw [hval] at hqp
    rw [hqp]
  · refine ⟨(s'.stepCommit).1, by rw [hcmds_b]; exact hexec_full, ?_⟩
    intro n hn hppn
    obtain ⟨q, hq, hval⟩ := hunder n hn hppn
    have hidin : (((sub.leafPaths []).map (fun q => (sub.isNoteAt q).getD dnote)).map
        NoteMetadata.id).contains n.id = true := by
      have hmemL : n.id ∈ ((sub.leafPaths []).map
          (fun q => (sub.isNoteAt q).getD dnote)).map NoteMetadata.id :=
        List.mem_map.mpr ⟨n, List.mem_map.mpr ⟨q, hq, hval⟩, rfl⟩
      exact List.elem_iff.mpr hmemL
    have hkeys : ∀ x ∈ cs.filter (fun x =>
        !(((sub.leafPaths []).map (fun q => (sub.isNoteAt q).getD dnote)).map
          NoteMetadata.id).contains x.1.id), x.1.id ≠ n.id := by
      intro x hx he
      have hpred := List.of_mem_filter hx
      rw [he, hidin] at hpred
      simp at hpred
    refine ⟨?_, ?_, ?_⟩
    · rw [hfsfinal]
      exact (mkFs_lookup_none _ n.id hkeys).1
    · rw [hfsfinal]
      exact (mkFs_lookup_none _ n.id hkeys).2
    · rw [hfsfinal]
      have hsub2 : List.Sublist (cs.filter (fun x =>
          !(((sub.leafPaths []).map (fun q => (sub.isNoteAt q).getD dnote)).map
            NoteMetadata.id).contains x.1.id)) cs := List.filter_sublist cs
      have hsubnotes : List.Sublist ((cs.filter (fun x =>
          !(((sub.leafPaths []).map (fun q => (sub.isNoteAt q).getD dnote)).map
            NoteMetadata.id).contains x.1.id)).map Prod.fst) notes := by
        rw [hnotes]
        exact hsub2.map Prod.fst
      have hpp2 := hpp.sublist hsubnotes
      have hpi2 := hpi.sublist hsubnotes
      unfold NoteMetadataStorage.from_fs
      rw [load_all_mkFs, from_list_eq _ hpi2 hpp2]
      simp only [NoteMetadataStorage.get_id, NoteMetadataStorage.try_resolve_id,
        hnid n hn]
      refine alookup_map_key_none NoteMetadata.path NoteMetadata.id n.path _ ?_
      intro v hv hvp
      have hvnotes : v ∈ notes := hsubnotes.subset hv
      have hveq : v = n := hpathinj v hvnotes n hn hvp
      obtain ⟨x, hx, hxe⟩ := List.mem_map.mp hv
      have hpred := List.of_mem_filter hx
      rw [show x.1.id = n.id from by rw [hxe, hveq]] at hpred
      rw [hidin] at hpred
      simp at hpred

/-- A note living under the directory named `123456`. -/
def nUnder : NoteMetadata :=
  { id := ⟨['7', '7', '7', '7', '7', '7']⟩, created := 0, last_updated := 0,
    path := ["123456", "x"], tags := [] }

/-- A repository with a note of id `123456` at path `c` and a note under
the directory `123456`. -/
def fs6 : FsMap := mkFs [(nShadowTarget, "c"), (nUnder, "d")]

/-- The committed state over that repository. -/
def s6 : CI := mkState fs6

/-- The non-recursive half of the claim fails under ID shadowing: the
path `123456` is an interior directory of the virtual tree, yet the
non-recursive remove request *succeeds* — the interpreter resolves the
token as the identifier of the unrelated note at path `c` and deletes
that note — while the note actually under the directory survives. -/
theorem C6_counterexample :
    ((NoteFileTree.from_iter (NoteMetadataStorage.from_fs fs6).notes).bind
        (fun t => t.find ["123456"])).map NoteFileTree.is_tree = some true ∧
    (appRemove noCollab none s6 ["123456"] false).2 = none ∧
    alookup (note_storage_path idC) (appRemove noCollab none s6 ["123456"] false).1.fs =
      none ∧
    ((NoteMetadataStorage.from_fs
        (appRemove noCollab none s6 ["123456"] false).1.fs).get_by_id nUnder.id).isSome =
      true := by
  decide

/-- A note at `d/x`. -/
def n61 : NoteMetadata :=
  { id := ⟨['6', '1', '6', '1', '6', '1']⟩, created := 0, last_updated := 0,
    path := ["d", "x"], tags := [] }

/-- A note at `d/y`. -/
def n62 : NoteMetadata :=
  { id := ⟨['6', '2', '6', '2', '6', '2']⟩, created := 0, last_updated := 0,
    path := ["d", "y"], tags := [] }

/-- The directory of the two notes under `d`. -/
def cs6w : List (NoteMetadata × String) := [(n61, "a"), (n62, "b")]

/-- The committed state over that directory, with its store cache
freshly loaded. -/
def s6w : CI :=
  { mkState (mkFs cs6w) with storage := some (NoteMetadataStorage.from_fs (mkFs cs6w)) }

/-- The virtual subtree at `d`. -/
def sub6w : NoteFileTree :=
  .tree (some 0) (.cons "x" (.note n61) (.cons "y" (.note n62) .nil))

/-- The whole virtual tree of the directory. -/
def T6w : NoteFileTree := .tree (some 0) (.cons "d" sub6w .nil)

/-- The directory-removal theorem applied at the concrete two-note store:
the non-recursive plan is the literal removal, and the recursive
execution succeeds, leaving both notes under `d` fileless and
unresolvable. -/
theorem C6_remove_directory_witness :
    (create_remove_commands (NoteMetadataStorage.from_fs (mkFs cs6w)) [] ["d"] false =
      [Command.removeNote ["d"]]) ∧
    ∃ s', CI.execute noCollab s6w
        (create_remove_commands (NoteMetadataStorage.from_fs (mkFs cs6w)) [] ["d"] true ++
          [Command.commit]) = (s', none) ∧
      ∀ n ∈ cs6w.map Prod.fst, properPre ["d"] n.path = true →
        alookup (note_storage_path n.id) s'.fs = none ∧
        alookup (note_metadata_path n.id) s'.fs = none ∧
        (NoteMetadataStorage.from_fs s'.fs).get_id n.path = none := by
  have h := C6_remove_directory noCollab cs6w (cs6w.map Prod.fst) s6w
    (NoteMetadataStorage.from_fs (mkFs cs6w)) T6w sub6w [] ["d"]
    rfl rfl rfl rfl (by decide) (by decide) (by decide) (by decide) (by decide)
    (by decide) rfl rfl (by decide)
  exact ⟨h.1.1, h.2.2.2⟩

end Gitnotes
